import Mathlib

/-!
# Verification of the SVG-gradient pipeline (`main.py`)

A shallow embedding of the deterministic core of the repository:
the regex-fallback instruction parser (`GradientParserAgent.parse_instruction`),
the markup patcher (`SVGModifierAgent.apply_gradients`) and the structural
validator (`IntegrityCheckerAgent.validate_svg`).  Documents and tokens are
`List Char`; each Python regular expression is embedded as a deterministic
scanner that reproduces the leftmost / greedy-with-backtracking semantics of
the concrete pattern used by the source.
-/

set_option maxRecDepth 10000

/-- Coerce a string literal into the `List Char` representation used by the
    embedding. -/
def str (s : String) : List Char := s.data

/-- Python `\s` on ASCII input (also the default `str.strip` class). -/
def isSpaceCh (c : Char) : Bool :=
  c = ' ' || c = '\t' || c = '\n' || c = '\r' || c = '\x0b' || c = '\x0c'

/-- ASCII lower-casing, matching Python `str.lower`/`re.I` on the ASCII
    commands the source manipulates. -/
def lowerChar (c : Char) : Char :=
  if 'A' ≤ c && c ≤ 'Z' then Char.ofNat (c.toNat + 32) else c

def lowerStr (l : List Char) : List Char := l.map lowerChar

/-- Python `\w` on ASCII input. -/
def isWordCh (c : Char) : Bool :=
  ('a' ≤ c && c ≤ 'z') || ('A' ≤ c && c ≤ 'Z') || ('0' ≤ c && c ≤ '9') || c = '_'

def isHexDigitCh (c : Char) : Bool :=
  ('0' ≤ c && c ≤ '9') || ('a' ≤ c && c ≤ 'f') || ('A' ≤ c && c ≤ 'F')

/-- The optional quote characters of the target regexes: backtick, single
    quote, double quote. -/
def isQuoteCh (c : Char) : Bool :=
  c = Char.ofNat 96 || c = '\'' || c = '"'

/-- Python `sub in s` (substring containment). -/
def containsSub (hay pat : List Char) : Bool :=
  match hay with
  | [] => pat.isEmpty
  | _ :: cs => pat.isPrefixOf hay || containsSub cs pat

/-- Number of (possibly overlapping) occurrence positions of `pat` in `l`. -/
def countOcc (pat l : List Char) : Nat :=
  match l with
  | [] => if pat.isEmpty then 1 else 0
  | _ :: cs => (if pat.isPrefixOf l then 1 else 0) + countOcc pat cs

/-- First occurrence of `pat`: `l = pre ++ pat ++ post` with `pre` minimal. -/
def splitFirst (pat : List Char) : List Char → Option (List Char × List Char)
  | [] => if pat.isEmpty then some ([], []) else none
  | c :: cs =>
    if pat.isPrefixOf (c :: cs) then some ([], (c :: cs).drop pat.length)
    else (splitFirst pat cs).map (fun pr => (c :: pr.1, pr.2))

/-- All decompositions `l = pre ++ pat ++ post`, in order of position. -/
def splitsOn (pat : List Char) : List Char → List (List Char × List Char)
  | [] => if pat.isEmpty then [([], [])] else []
  | c :: cs =>
    (if pat.isPrefixOf (c :: cs) then [(([] : List Char), (c :: cs).drop pat.length)] else []) ++
      (splitsOn pat cs).map (fun pr => (c :: pr.1, pr.2))

/-- `[^>]*`-compatibility of a capture-group piece. -/
def noGt (l : List Char) : Bool := l.all (fun c => c ≠ '>')

/-- First `some` produced by `f` along a list (regex backtracking order). -/
def firstSome {α β : Type} (f : α → Option β) : List α → Option β
  | [] => none
  | a :: rest =>
    match f a with
    | some b => some b
    | none => firstSome f rest

/-- Decimal digits of a natural number, as printed by Python `str(n)` /
    an f-string.  Fuel-structured so that the kernel can evaluate it. -/
def natDigitsGo (fuel n : Nat) : List Char :=
  match fuel with
  | 0 => []
  | fuel + 1 =>
    if n < 10 then [Char.ofNat (48 + n)]
    else natDigitsGo fuel (n / 10) ++ [Char.ofNat (48 + n % 10)]

def natStr (n : Nat) : List Char := natDigitsGo (n + 1) n

-- -----------------------------------------------------------------------
-- Color normalizer (`COLOR_MAP`, `get_hex_color`)
-- -----------------------------------------------------------------------

/-- The fixed name-to-hex table of `main.py`. -/
def COLOR_MAP : List (List Char × List Char) :=
  [ (str "red", str "#ff0000"), (str "green", str "#00ff00"), (str "blue", str "#0000ff"),
    (str "white", str "#ffffff"), (str "black", str "#000000"), (str "yellow", str "#ffff00"),
    (str "purple", str "#800080"), (str "orange", str "#ffa500"), (str "gray", str "#808080"),
    (str "grey", str "#808080"), (str "cyan", str "#00ffff"), (str "magenta", str "#ff00ff"),
    (str "lime", str "#00ff00"), (str "maroon", str "#800000"), (str "navy", str "#000080"),
    (str "olive", str "#808000"), (str "teal", str "#008080"), (str "silver", str "#c0c0c0"),
    (str "gold", str "#ffd700"), (str "pink", str "#ffc0cb"), (str "brown", str "#a52a2a") ]

/-- Python `dict.get` over the association list. -/
def lookupColor : List (List Char × List Char) → List Char → Option (List Char)
  | [], _ => none
  | (k, v) :: rest, key => if k = key then some v else lookupColor rest key

/-- `get_hex_color`: case-insensitive lookup with pass-through. -/
def getHexColor (c : List Char) : List Char :=
  match lookupColor COLOR_MAP (lowerStr c) with
  | some v => v
  | none => c

-- -----------------------------------------------------------------------
-- Instruction parser: segmentation
-- `re.split(r"\s*(?:,|and|then)\s+", instruction, flags=re.I)`
-- -----------------------------------------------------------------------

/-- Case-insensitive literal match at the head; returns the remainder.
    The patterns supplied are lower-case. -/
def ciPrefixRest (pat l : List Char) : Option (List Char) :=
  match pat, l with
  | [], r => some r
  | p :: ps, c :: cs => if lowerChar c = p then ciPrefixRest ps cs else none
  | _ :: _, [] => none

/-- The separator alternation `,|and|then` (case-insensitive), applied at the
    head of the list; returns the remainder after the matched token. -/
def sepToken (l : List Char) : Option (List Char) :=
  match l with
  | ',' :: r => some r
  | _ =>
    match ciPrefixRest (str "and") l with
    | some r => some r
    | none => ciPrefixRest (str "then") l

/-- Try to match `\s*(?:,|and|then)\s+` at the head of `l`; on success
    return the text after the whole match.  The leading `\s*` and trailing
    `\s+` are greedy; no backtracking is possible because no separator
    begins or ends with whitespace. -/
def trySepAt (l : List Char) : Option (List Char) :=
  match sepToken (l.dropWhile isSpaceCh) with
  | none => none
  | some r =>
    match r with
    | [] => none
    | c :: _ => if isSpaceCh c then some (r.dropWhile isSpaceCh) else none

/-- Left-to-right scan of `re.split`: emit the piece accumulated so far at
    each leftmost separator match. -/
def splitGo (fuel : Nat) (acc l : List Char) : List (List Char) :=
  match fuel with
  | 0 => [acc.reverse ++ l]
  | fuel + 1 =>
    match l with
    | [] => [acc.reverse]
    | c :: cs =>
      match trySepAt (c :: cs) with
      | some rest => acc.reverse :: splitGo fuel [] rest
      | none => splitGo fuel (c :: acc) cs

def splitCommands (instr : List Char) : List (List Char) :=
  splitGo instr.length [] instr

/-- Python `str.strip()`. -/
def trim (l : List Char) : List Char :=
  ((l.dropWhile isSpaceCh).reverse.dropWhile isSpaceCh).reverse

-- -----------------------------------------------------------------------
-- Instruction parser: target identification (`identify_target`)
-- -----------------------------------------------------------------------

/-- Match of `id\s*[`'"]?(\w+)` at the head of the list (the backtick is one
    of the optional quotes), returning the captured word.  If the optional
    quote is taken but no word character follows, the regex backtracks to the
    no-quote branch, which then also fails on the quote character, so the
    embedded test is exact. -/
def matchIdAt (l : List Char) : Option (List Char) :=
  match l with
  | c1 :: c2 :: rest =>
    if lowerChar c1 = 'i' && lowerChar c2 = 'd' then
      let r := rest.dropWhile isSpaceCh
      match r with
      | [] => none
      | q :: qs =>
        if isQuoteCh q then
          let w := qs.takeWhile isWordCh
          if w.isEmpty then none else some w
        else
          let w := r.takeWhile isWordCh
          if w.isEmpty then none else some w
    else none
  | _ => none

def searchIdRef : List Char → Option (List Char)
  | [] => none
  | c :: cs =>
    match matchIdAt (c :: cs) with
    | some w => some w
    | none => searchIdRef cs

def isClassCh (c : Char) : Bool := isWordCh c || c = '-'

/-- Match of `class\s*[`'"]?([\w-]+)` at the head of the list. -/
def matchClassAt (l : List Char) : Option (List Char) :=
  match ciPrefixRest (str "class") l with
  | none => none
  | some rest =>
    let r := rest.dropWhile isSpaceCh
    match r with
    | [] => none
    | q :: qs =>
      if isQuoteCh q then
        let w := qs.takeWhile isClassCh
        if w.isEmpty then none else some w
      else
        let w := r.takeWhile isClassCh
        if w.isEmpty then none else some w

def searchClassRef : List Char → Option (List Char)
  | [] => none
  | c :: cs =>
    match matchClassAt (c :: cs) with
    | some w => some w
    | none => searchClassRef cs

/-- Left word boundary `\b` for a pattern beginning with a word character. -/
def boundaryL : Option Char → Bool
  | none => true
  | some c => !isWordCh c

/-- Right word boundary after a literal alternative. -/
def boundaryR : List Char → Bool
  | [] => true
  | c :: _ => !isWordCh c

/-- Whether one of the `\b<alt>\b` alternatives (all ending in a word
    character) matches at the head, given the previous character. -/
def matchAltHere (alts : List (List Char)) (prev : Option Char) (l : List Char) : Bool :=
  boundaryL prev &&
    alts.any (fun a =>
      match ciPrefixRest a l with
      | some rest => boundaryR rest
      | none => false)

def searchWordGo (alts : List (List Char)) (prev : Option Char) : List Char → Bool
  | [] => false
  | c :: cs => matchAltHere alts prev (c :: cs) || searchWordGo alts (some c) cs

/-- Truthiness of `re.search` for the word-bounded shape patterns. -/
def searchWordB (cmd : List Char) (alts : List (List Char)) : Bool :=
  searchWordGo alts none cmd

/-- `identify_target`: selector (or none) and description, in the priority
    order of the source. -/
def identifyTarget (cmd : List Char) : Option (List Char) × List Char :=
  match searchIdRef cmd with
  | some n => (some ('#' :: n), str "element with id '" ++ n ++ str "'")
  | none =>
    match searchClassRef cmd with
    | some n => (some ('.' :: n), str "element with class '" ++ n ++ str "'")
    | none =>
      if searchWordB cmd [str "all circles", str "all circle"] then
        (some (str "circle"), str "all circles")
      else if searchWordB cmd [str "all rectangles", str "all rectangle"] then
        (some (str "rect"), str "all rectangles")
      else if searchWordB cmd [str "circle"] then
        (some (str "circle"), str "circle")
      else if searchWordB cmd [str "rect", str "rectangle"] then
        (some (str "rect"), str "rectangle")
      else (none, str "element")

-- -----------------------------------------------------------------------
-- Instruction parser: color extraction
-- `re.findall(r'(#(?:[0-9a-fA-F]{3,6})|\b(?:red|...|brown)\b)', cmd, re.I)`
-- -----------------------------------------------------------------------

/-- The color-name alternatives, in the order of the regex. -/
def colorNames : List (List Char) :=
  [str "red", str "green", str "blue", str "white", str "black", str "yellow",
   str "purple", str "orange", str "gray", str "grey", str "cyan", str "magenta",
   str "lime", str "maroon", str "navy", str "olive", str "teal", str "silver",
   str "gold", str "pink", str "brown"]

/-- Match of `#[0-9a-fA-F]{3,6}` at the head: at least 3 hex digits,
    greedily up to 6.  Returns token and remainder. -/
def matchHexAt (l : List Char) : Option (List Char × List Char) :=
  match l with
  | '#' :: rest =>
    let run := rest.takeWhile isHexDigitCh
    if 3 ≤ run.length then
      let k := min run.length 6
      some ('#' :: run.take k, rest.drop k)
    else none
  | _ => none

/-- Match of `\b(?:red|...)\b` at the head (given the previous character);
    returns the matched text exactly as it appears and the remainder. -/
def matchNameAt (prev : Option Char) (l : List Char) : Option (List Char × List Char) :=
  if boundaryL prev then
    firstSome (fun name =>
      match ciPrefixRest name l with
      | some rest => if boundaryR rest then some (l.take name.length, rest) else none
      | none => none) colorNames
  else none

/-- `re.findall` scan for the color pattern: leftmost, non-overlapping,
    hex alternative first. -/
def findColorsGo (fuel : Nat) (prev : Option Char) (l : List Char) : List (List Char) :=
  match fuel with
  | 0 => []
  | fuel + 1 =>
    match l with
    | [] => []
    | c :: cs =>
      match matchHexAt (c :: cs) with
      | some (tok, rest) => tok :: findColorsGo fuel tok.getLast? rest
      | none =>
        match matchNameAt prev (c :: cs) with
        | some (tok, rest) => tok :: findColorsGo fuel tok.getLast? rest
        | none => findColorsGo fuel (some c) cs

def findColors (cmd : List Char) : List (List Char) :=
  findColorsGo cmd.length none cmd

-- -----------------------------------------------------------------------
-- The specification data model (the JSON dictionaries of the source)
-- -----------------------------------------------------------------------

structure Target where
  selector : List Char
  description : List Char
  deriving DecidableEq, Repr

structure GStop where
  offset : Nat
  color : List Char
  deriving DecidableEq, Repr

structure Gradient where
  gtype : List Char
  direction : List Char
  stops : List GStop
  deriving DecidableEq, Repr

structure GradientStep where
  targets : List Target
  gradient : Gradient
  deriving DecidableEq, Repr

structure Specification where
  steps : List GradientStep
  deriving DecidableEq, Repr

/-- The per-command body of `parse_instruction`'s loop.  The Python code
    replaces `hex_colors` by the default pair when fewer than two colors were
    found and then reads indices 0 and 1; the match below is that exact
    case split. -/
def parseCommand (cmd : List Char) : GradientStep :=
  let t := identifyTarget cmd
  let gtype := if containsSub (lowerStr cmd) (str "radial") then str "radial" else str "linear"
  let dir :=
    if containsSub (lowerStr cmd) (str "vertical") then str "vertical"
    else if containsSub (lowerStr cmd) (str "diagonal") then str "diagonal"
    else str "horizontal"
  let hexColors := (findColors cmd).map getHexColor
  let stops :=
    match hexColors with
    | c1 :: c2 :: _ => [⟨0, c1⟩, ⟨100, c2⟩]
    | _ => [⟨0, str "#ff0000"⟩, ⟨100, str "#0000ff"⟩]
  -- `target if target else "rect"`: `identify_target` never returns an empty
  -- string, so Python truthiness coincides with the `Option` case split.
  { targets := [⟨t.1.getD (str "rect"), t.2⟩],
    gradient := ⟨gtype, dir, stops⟩ }

/-- The deterministic (regex fallback) path of
    `GradientParserAgent.parse_instruction`. -/
def parseInstruction (instr : List Char) : Specification :=
  ⟨(((splitCommands instr).map trim).filter (fun c => !c.isEmpty)).map parseCommand⟩

-- -----------------------------------------------------------------------
-- SVG modifier (`SVGModifierAgent.apply_gradients`)
-- -----------------------------------------------------------------------

/-- The literal `id="<eid>"` of the id-selector pattern. -/
def idLit (eid : List Char) : List Char := str "id=\"" ++ eid ++ str "\""

/-- The literal `class="` of the class-selector pattern. -/
def classLit : List Char := str "class=\""

/-- The literal `fill="` shared by all three substitution patterns. -/
def fillLit : List Char := str "fill=\""

/-- The replacement tail `fill="url(#<gid>)"` of `<\1fill="url(#...)"`. -/
def fillRepl (gid : List Char) : List Char :=
  str "fill=\"url(#" ++ gid ++ str ")\""

/-- Final stage of every fill pattern: greedy `[^>]*` then `fill="` then
    `[^"]*` then `"`.  `pre` is the text before this stage inside the tag;
    candidates are tried from the rightmost `fill="` occurrence backwards
    (greedy with backtracking); a candidate succeeds when a closing quote
    exists after it.  Returns `(groupPart, rest)` where `groupPart` is the
    `[^>]*` capture before `fill="` and `rest` the text after the closing
    quote. -/
def fillStage (l : List Char) : Option (List Char × List Char) :=
  firstSome (fun pr =>
      if noGt pr.1 then
        if (pr.2.takeWhile (fun c => c ≠ '"')).length < pr.2.length then
          some (pr.1, pr.2.drop ((pr.2.takeWhile (fun c => c ≠ '"')).length + 1))
        else none
      else none)
    (splitsOn fillLit l).reverse

/-- Match of `<([^>]*id="<eid>"[^>]*)fill="[^"]*"` at the head of `l`.
    Greedy `[^>]*` with backtracking: the `id="<eid>"` occurrences with a
    `>`-free prefix are tried from the last one backwards. -/
def tryMatchIdFill (eid : List Char) (l : List Char) : Option (List Char × List Char) :=
  match l with
  | '<' :: rest =>
    firstSome (fun pr =>
        if noGt pr.1 then
          match fillStage pr.2 with
          | some (y1, after) => some (pr.1 ++ idLit eid ++ y1, after)
          | none => none
        else none)
      (splitsOn (idLit eid) rest).reverse
  | _ => none

/-- Inner stage of the class pattern after `class="`: greedy `[^"]*` then the
    class-name literal, then `[^"]*` then `"`, then the shared fill stage. -/
def classInner (cls : List Char) (l : List Char) : Option (List Char × List Char) :=
  firstSome (fun pr =>
      if pr.1.all (fun c => c ≠ '"') then
        if (pr.2.takeWhile (fun c => c ≠ '"')).length < pr.2.length then
          match fillStage (pr.2.drop ((pr.2.takeWhile (fun c => c ≠ '"')).length + 1)) with
          | some (y1, after) =>
            some (pr.1 ++ cls ++ pr.2.takeWhile (fun c => c ≠ '"') ++ '"' :: y1, after)
          | none => none
        else none
      else none)
    (splitsOn cls l).reverse

/-- Match of `<([^>]*class="[^"]*<cls>[^"]*"[^>]*)fill="[^"]*"` at the head. -/
def tryMatchClassFill (cls : List Char) (l : List Char) : Option (List Char × List Char) :=
  match l with
  | '<' :: rest =>
    firstSome (fun pr =>
        if noGt pr.1 then
          match classInner cls pr.2 with
          | some (inner, after) => some (pr.1 ++ classLit ++ inner, after)
          | none => none
        else none)
      (splitsOn classLit rest).reverse
  | _ => none

/-- Match of `<(<tag>[^>]*)fill="[^"]*"` at the head. -/
def tryMatchTagFill (tag : List Char) (l : List Char) : Option (List Char × List Char) :=
  match l with
  | '<' :: rest =>
    if tag.isPrefixOf rest then
      match fillStage (rest.drop tag.length) with
      | some (y1, after) => some (tag ++ y1, after)
      | none => none
    else none
  | _ => none

/-- Leftmost match of a tag matcher: `(textBefore, group, textAfter)`. -/
def findMatch (tryM : List Char → Option (List Char × List Char)) :
    List Char → Option (List Char × List Char × List Char)
  | [] => none
  | c :: cs =>
    match tryM (c :: cs) with
    | some (grp, rest) => some ([], grp, rest)
    | none => (findMatch tryM cs).map (fun t => (c :: t.1, t.2.1, t.2.2))

/-- `re.sub` for the fill patterns: replace every non-overlapping leftmost
    match `<(grp)fill="..."` by `<(grp)fill="url(#gid)"`. -/
def subFillGo (tryM : List Char → Option (List Char × List Char))
    (repl : List Char) (fuel : Nat) (l : List Char) : List Char :=
  match fuel with
  | 0 => l
  | fuel + 1 =>
    match findMatch tryM l with
    | none => l
    | some (pre, grp, rest) => pre ++ '<' :: (grp ++ repl) ++ subFillGo tryM repl fuel rest

def subFillAll (tryM : List Char → Option (List Char × List Char))
    (repl : List Char) (l : List Char) : List Char :=
  subFillGo tryM repl l.length l

/-- The per-target substitution dispatch of `apply_gradients`. -/
def applyTarget (gid : List Char) (svg : List Char) (sel : List Char) : List Char :=
  match sel with
  | '#' :: eid => subFillAll (tryMatchIdFill eid) (fillRepl gid) svg
  | '.' :: cls => subFillAll (tryMatchClassFill cls) (fillRepl gid) svg
  | _ => subFillAll (tryMatchTagFill sel) (fillRepl gid) svg

-- -----------------------------------------------------------------------
-- Gradient synthesis (the `gradient_def` construction)
-- -----------------------------------------------------------------------

/-- The defensive color re-normalization inside the stop loop: only names
    that do not already start with `#` are mapped. -/
def stopColor (c : List Char) : List Char :=
  if (match c with | '#' :: _ => false | _ => true) then
    match lookupColor COLOR_MAP (lowerStr c) with
    | some v => v
    | none => c
  else c

def stopStr (s : GStop) : List Char :=
  str "<stop offset=\"" ++ natStr s.offset ++ str "%\" style=\"stop-color:" ++
    stopColor s.color ++ str ";stop-opacity:1\" />"

/-- The opening gradient element chosen by type and direction. -/
def gradientOpen (gid : List Char) (g : Gradient) : List Char :=
  if g.gtype = str "linear" then
    if g.direction = str "vertical" then
      str "<linearGradient id=\"" ++ gid ++ str "\" x1=\"0%\" y1=\"0%\" x2=\"0%\" y2=\"100%\">"
    else if g.direction = str "diagonal" then
      str "<linearGradient id=\"" ++ gid ++ str "\" x1=\"0%\" y1=\"0%\" x2=\"100%\" y2=\"100%\">"
    else
      str "<linearGradient id=\"" ++ gid ++ str "\" x1=\"0%\" y1=\"0%\" x2=\"100%\" y2=\"0%\">"
  else
    str "<radialGradient id=\"" ++ gid ++ str "\" cx=\"50%\" cy=\"50%\" r=\"50%\" fx=\"50%\" fy=\"50%\">"

def gradientClose (g : Gradient) : List Char :=
  if g.gtype = str "linear" then str "</linearGradient>" else str "</radialGradient>"

/-- One synthesized gradient-definition fragment. -/
def synthGradient (gid : List Char) (g : Gradient) : List Char :=
  gradientOpen gid g ++ (g.stops.map stopStr).flatten ++ gradientClose g

-- -----------------------------------------------------------------------
-- Definitions-block placement
-- -----------------------------------------------------------------------

def defsOpen : List Char := str "<defs>"

def defsClose : List Char := str "</defs>"

/-- `re.sub(r'<defs>.*?</defs>', block, svg, flags=re.DOTALL)`.
    The non-greedy match runs from an occurrence of `<defs>` to the nearest
    following `</defs>`.  Because "a `</defs>` exists later" is monotone in
    the position, a leftmost `<defs>` without a closing marker implies no
    occurrence matches at all, so scanning by first occurrences is exact. -/
def replaceDefsGo (block : List Char) (fuel : Nat) (l : List Char) : List Char :=
  match fuel with
  | 0 => l
  | fuel + 1 =>
    match splitFirst defsOpen l with
    | none => l
    | some (pre, rest) =>
      match splitFirst defsClose rest with
      | none => l
      | some (_, rest2) => pre ++ block ++ replaceDefsGo block fuel rest2

def replaceDefsAll (block l : List Char) : List Char :=
  replaceDefsGo block l.length l

/-- `re.sub(r'(<svg[^>]*>)', r'\1' + block, svg, 1)`: the first `<svg`
    followed eventually by `>` has the block inserted after that `>`.
    If the first `<svg` has no `>` after it, no later one does either. -/
def insertAfterSvgTag (block l : List Char) : List Char :=
  match splitFirst (str "<svg") l with
  | none => l
  | some (pre, rest) =>
    let run := rest.takeWhile (fun c => c ≠ '>')
    if run.length < rest.length then
      pre ++ str "<svg" ++ run ++ '>' :: block ++ rest.drop (run.length + 1)
    else l

/-- Lines 267-274 of the source: combine fragments and place the block. -/
def placeDefs (block svg : List Char) : List Char :=
  if containsSub svg defsOpen then replaceDefsAll block svg
  else insertAfterSvgTag block svg

-- -----------------------------------------------------------------------
-- `apply_gradients` top level
-- -----------------------------------------------------------------------

/-- One step of the main loop: synthesize the fragment and patch every
    target, with gradient id `grad<n>`. -/
def applyStep (acc : List (List Char) × List Char) (n : Nat) (step : GradientStep) :
    List (List Char) × List Char :=
  let gid := str "grad" ++ natStr n
  let frag := synthGradient gid step.gradient
  let svg' := step.targets.foldl (fun s t => applyTarget gid s t.selector) acc.2
  (acc.1 ++ [frag], svg')

def applyStepsGo : List (List Char) × List Char → Nat → List GradientStep →
    List (List Char) × List Char
  | acc, _, [] => acc
  | acc, n, s :: rest => applyStepsGo (applyStep acc n s) (n + 1) rest

/-- The fill-patched document and the collected fragments, as they stand at
    line 267 of the source. -/
def patchedOf (svg : List Char) (config : Specification) : List (List Char) × List Char :=
  applyStepsGo ([], svg) 1 config.steps

/-- The combined definitions block of one `apply_gradients` call. -/
def blockOf (svg : List Char) (config : Specification) : List Char :=
  defsOpen ++ (patchedOf svg config).1.flatten ++ defsClose

/-- `SVGModifierAgent.apply_gradients`. -/
def applyGradients (svg : List Char) (config : Specification) : List Char :=
  placeDefs (blockOf svg config) (patchedOf svg config).2

-- -----------------------------------------------------------------------
-- Structural validator (`IntegrityCheckerAgent.validate_svg`)
-- -----------------------------------------------------------------------

structure ValidationReport where
  valid : Bool
  errors : List (List Char)
  deriving DecidableEq, Repr

/-- Truthiness of `re.match(r'^\s*<svg[^>]*>', svg)`: leading whitespace,
    the literal `<svg`, and some later `>`. -/
def rootOk (svg : List Char) : Bool :=
  let r := svg.dropWhile isSpaceCh
  (str "<svg").isPrefixOf r && ((r.drop 4).any (fun c => c = '>'))

def rootMsg : List Char := str "Document missing valid SVG root element"

def improperMsg : List Char := str "Definition section improperly structured"

def mustFollowMsg : List Char := str "Definition section must follow opening SVG tag"

/-- Python `str.find(sub, start)` with the negative-start clamping of the
    slicing protocol; `-1` when absent. -/
def pyFindFrom (hay pat : List Char) (start : Int) : Int :=
  let s : Nat := if start < 0 then (hay.length + start).toNat else start.toNat
  let rec go (i : Nat) (l : List Char) : Int :=
    match l with
    | [] => if pat.isEmpty then i else -1
    | _ :: cs => if pat.isPrefixOf l then i else go (i + 1) cs
  go s (hay.drop s)

def pyFind (hay pat : List Char) : Int := pyFindFrom hay pat 0

/-- The definitions-section checks (note the `elif`: the placement check
    runs only when the section is well structured). -/
def defsErrs (svg : List Char) : List (List Char) :=
  if containsSub svg defsOpen then
    let ds := pyFind svg defsOpen
    let de := pyFind svg defsClose
    if de ≤ ds then [improperMsg]
    else if ds < pyFindFrom svg ['>'] (pyFind svg (str "<svg")) then [mustFollowMsg]
    else []
  else []

def rootErrs (svg : List Char) : List (List Char) :=
  if rootOk svg then [] else [rootMsg]

/-- `re.findall(r'url\(#([^)]+)\)', svg)`: non-overlapping scan, each token
    the nonempty run between `url(#` and the next `)`. -/
def findRefsGo (fuel : Nat) (l : List Char) : List (List Char) :=
  match fuel with
  | 0 => []
  | fuel + 1 =>
    match l with
    | [] => []
    | c :: cs =>
      if (str "url(#").isPrefixOf (c :: cs) then
        let w := (c :: cs).drop 5
        let run := w.takeWhile (fun x => x ≠ ')')
        if run.isEmpty || run.length = w.length then findRefsGo fuel cs
        else run :: findRefsGo fuel (w.drop (run.length + 1))
      else findRefsGo fuel cs

def pyRefs (svg : List Char) : List (List Char) :=
  findRefsGo svg.length svg

/-- Match of `<[^>]*id="([^"]+)"` at the head: greedy `[^>]*` backtracks to
    the last `id="` occurrence (with `>`-free prefix) that is followed by a
    nonempty quote-free run and a quote. -/
def tryIdCapture (l : List Char) : Option (List Char × List Char) :=
  match l with
  | '<' :: rest =>
    firstSome (fun pr =>
        if noGt pr.1 then
          let w := pr.2
          let run := w.takeWhile (fun c => c ≠ '"')
          if run.isEmpty || run.length = w.length then none
          else some (run, w.drop (run.length + 1))
        else none)
      (splitsOn (str "id=\"") rest).reverse
  | _ => none

/-- `re.findall(r'<[^>]*id="([^"]+)"', svg)`. -/
def findIdsGo (fuel : Nat) (l : List Char) : List (List Char) :=
  match fuel with
  | 0 => []
  | fuel + 1 =>
    match l with
    | [] => []
    | c :: cs =>
      match tryIdCapture (c :: cs) with
      | some (tok, rest) => tok :: findIdsGo fuel rest
      | none => findIdsGo fuel cs

def pyIds (svg : List Char) : List (List Char) :=
  findIdsGo svg.length svg

def refMsg (r : List Char) : List Char :=
  str "Gradient reference '" ++ r ++ str "' lacks corresponding definition"

def refErrs (svg : List Char) : List (List Char) :=
  ((pyRefs svg).filter (fun r => !decide (r ∈ pyIds svg))).map refMsg

/-- `IntegrityCheckerAgent.validate_svg`. -/
def validateSvg (svg : List Char) : ValidationReport :=
  let errs := rootErrs svg ++ defsErrs svg ++ refErrs svg
  ⟨errs.isEmpty, errs⟩

-- -----------------------------------------------------------------------
-- Specification-side predicates (for comparing the code with the spec text)
-- -----------------------------------------------------------------------

/-- Color token shape claimed by the spec: `#` followed by exactly 3 or
    exactly 6 hex digits, or a known color name (case-insensitive). -/
def specColorToken (t : List Char) : Bool :=
  (match t with
   | '#' :: ds => ds.all isHexDigitCh && (ds.length = 3 || ds.length = 6)
   | _ => false) ||
  colorNames.contains (lowerStr t)

/-- Color token shape actually recognized by the code's regex: `#` followed
    by 3 to 6 hex digits, or a known color name. -/
def codeColorToken (t : List Char) : Bool :=
  (match t with
   | '#' :: ds => ds.all isHexDigitCh && decide (3 ≤ ds.length) && decide (ds.length ≤ 6)
   | _ => false) ||
  colorNames.contains (lowerStr t)

/-- The tokens `ts` occur disjointly, in left-to-right order, inside `l`. -/
inductive Appears : List (List Char) → List Char → Prop
  | nil (l : List Char) : Appears [] l
  | skip (c : Char) {ts : List (List Char)} {l : List Char} :
      Appears ts l → Appears ts (c :: l)
  | tok (t : List Char) {ts : List (List Char)} {l : List Char} :
      Appears ts l → Appears (t :: ts) (t ++ l)

/-- A separator chunk of the segmentation regex
    `\s*(?:,|and|then)\s+` (case-insensitive). -/
def IsSepChunk (s : List Char) : Prop :=
  ∃ w1 tok w2, s = w1 ++ tok ++ w2 ∧ w1.all isSpaceCh = true ∧
    w2.all isSpaceCh = true ∧ w2 ≠ [] ∧
    (tok = [','] ∨ lowerStr tok = str "and" ∨ lowerStr tok = str "then")

/-- The pieces interleave with separator chunks to rebuild the instruction. -/
inductive JoinsWithSeps : List (List Char) → List Char → Prop
  | single (p : List Char) : JoinsWithSeps [p] p
  | cons (p s rest : List Char) {ps : List (List Char)} :
      IsSepChunk s → JoinsWithSeps ps rest → JoinsWithSeps (p :: ps) (p ++ s ++ rest)

-- -----------------------------------------------------------------------
-- Basic lemmas
-- -----------------------------------------------------------------------

theorem lookupColor_mem {m : List (List Char × List Char)} {k v : List Char}
    (h : lookupColor m k = some v) : ∃ p ∈ m, p.2 = v := by
  induction m with
  | nil => simp [lookupColor] at h
  | cons hd tl ih =>
    obtain ⟨k', v'⟩ := hd
    by_cases hk : k' = k
    · simp [lookupColor, hk] at h
      exact ⟨(k, v'), by simp [hk], by simp [h]⟩
    · simp [lookupColor, hk] at h
      obtain ⟨p, hp, hv⟩ := ih h
      exact ⟨p, by simp [hp], hv⟩

theorem colorMap_values_fresh :
    COLOR_MAP.all (fun p => (lookupColor COLOR_MAP (lowerStr p.2)).isNone) = true := by
  decide

/-- Claim C8.  Color normalization (`get_hex_color`) is idempotent: a value
    produced by the table is never itself a key, and unrecognized tokens
    pass through unchanged. -/
theorem claim_C8 (x : List Char) : getHexColor (getHexColor x) = getHexColor x := by
  unfold getHexColor
  cases h : lookupColor COLOR_MAP (lowerStr x) with
  | none => simp [h]
  | some v =>
    obtain ⟨p, hp, hv⟩ := lookupColor_mem h
    have := List.all_eq_true.mp colorMap_values_fresh p hp
    rw [hv] at this
    simp only [Option.isNone_iff_eq_none] at this
    simp [this]

/-- Claim C1.  The deterministic parser is total, and every step it emits
    has exactly two stops at offsets 0 and 100 and a single target. -/
theorem claim_C1 (instr : List Char) (step : GradientStep)
    (h : step ∈ (parseInstruction instr).steps) :
    (∃ c1 c2, step.gradient.stops = [⟨0, c1⟩, ⟨100, c2⟩]) ∧ step.targets ≠ [] := by
  simp only [parseInstruction, List.mem_map] at h
  obtain ⟨cmd, _, rfl⟩ := h
  unfold parseCommand
  refine ⟨?_, by simp⟩
  cases hc : (findColors cmd).map getHexColor with
  | nil => exact ⟨str "#ff0000", str "#0000ff", by simp [hc]⟩
  | cons c1 t =>
    cases t with
    | nil => exact ⟨str "#ff0000", str "#0000ff", by simp [hc]⟩
    | cons c2 t2 => exact ⟨c1, c2, by simp [hc]⟩

theorem claim_C1_witness :
    (⟨[⟨str "rect", str "element"⟩],
      ⟨str "linear", str "horizontal", [⟨0, str "#ff0000"⟩, ⟨100, str "#0000ff"⟩]⟩⟩ : GradientStep) ∈
        (parseInstruction (str "make it nice")).steps ∧
    ((∃ c1 c2, (⟨[⟨str "rect", str "element"⟩],
      ⟨str "linear", str "horizontal", [⟨0, str "#ff0000"⟩, ⟨100, str "#0000ff"⟩]⟩⟩ : GradientStep).gradient.stops
        = [⟨0, c1⟩, ⟨100, c2⟩]) ∧
     (⟨[⟨str "rect", str "element"⟩],
      ⟨str "linear", str "horizontal", [⟨0, str "#ff0000"⟩, ⟨100, str "#0000ff"⟩]⟩⟩ : GradientStep).targets ≠ []) :=
  ⟨by decide, claim_C1 (str "make it nice") _ (by decide)⟩

/-- Claim C9 (counterexample).  On `"make it nice"` target identification
    indeed fails, but the parser itself substitutes the default selector
    `rect` into the Specification, so the selector is not left unresolved
    until patch time. -/
theorem claim_C9_cex :
    identifyTarget (str "make it nice") = (none, str "element") ∧
    (parseInstruction (str "make it nice")).steps.map (fun s => s.targets.map Target.selector) =
      [[str "rect"]] := by
  constructor
  · decide
  · decide

/-- Claim C9 (amended).  Parsing `"make it nice"` yields one step that is
    Linear/Horizontal with the default stops, and whose target selector has
    already been resolved to the default tag `rect` (description `element`)
    by the parser itself. -/
theorem claim_C9 :
    parseInstruction (str "make it nice") =
      ⟨[⟨[⟨str "rect", str "element"⟩],
         ⟨str "linear", str "horizontal",
          [⟨0, str "#ff0000"⟩, ⟨100, str "#0000ff"⟩]⟩⟩]⟩ := by
  decide

theorem ciPrefixRest_decomp {pat l r : List Char} (h : ciPrefixRest pat l = some r) :
    ∃ tok, l = tok ++ r ∧ tok.length = pat.length ∧ lowerStr tok = pat := by
  induction pat generalizing l with
  | nil =>
    simp only [ciPrefixRest, Option.some.injEq] at h
    exact ⟨[], by simp [h], by simp, rfl⟩
  | cons p ps ih =>
    cases l with
    | nil => simp [ciPrefixRest] at h
    | cons c cs =>
      simp only [ciPrefixRest] at h
      by_cases hc : lowerChar c = p
      · rw [if_pos hc] at h
        obtain ⟨tok, heq, hlen, hlow⟩ := ih h
        refine ⟨c :: tok, by simp [heq], by simp [hlen], ?_⟩
        simp only [lowerStr, List.map_cons]
        simp only [lowerStr] at hlow
        rw [hc, hlow]
      · simp [hc] at h

theorem sepToken_decomp {l r : List Char} (h : sepToken l = some r) :
    ∃ tok, tok ≠ [] ∧ l = tok ++ r ∧
      (tok = [','] ∨ lowerStr tok = str "and" ∨ lowerStr tok = str "then") := by
  unfold sepToken at h
  split at h
  · rename_i r'
    exact ⟨[','], by simp, by simp [Option.some.inj h], Or.inl rfl⟩
  · cases han : ciPrefixRest (str "and") l with
    | some r1 =>
      rw [han] at h
      simp only [Option.some.injEq] at h
      obtain ⟨tok, heq, hlen, hlow⟩ := ciPrefixRest_decomp han
      exact ⟨tok, by rintro rfl; simp [str] at hlen, by rw [heq, h], Or.inr (Or.inl hlow)⟩
    | none =>
      rw [han] at h
      obtain ⟨tok, heq, hlen, hlow⟩ := ciPrefixRest_decomp h
      exact ⟨tok, by rintro rfl; simp [str] at hlen, heq, Or.inr (Or.inr hlow)⟩

theorem trySepAt_decomp {l rest : List Char} (h : trySepAt l = some rest) :
    ∃ s, s ≠ [] ∧ l = s ++ rest ∧ IsSepChunk s := by
  unfold trySepAt at h
  cases hs : sepToken (l.dropWhile isSpaceCh) with
  | none => rw [hs] at h; exact absurd h (by simp)
  | some r =>
    rw [hs] at h
    cases r with
    | nil => exact absurd h (by simp)
    | cons c cs =>
      by_cases hsp : isSpaceCh c = true
      · simp only [hsp, if_true, Option.some.injEq] at h
        obtain ⟨tok, htne, heq, hkind⟩ := sepToken_decomp hs
        refine ⟨l.takeWhile isSpaceCh ++ tok ++ (c :: cs).takeWhile isSpaceCh, ?_, ?_, ?_⟩
        · intro hcon
          rcases List.append_eq_nil.mp hcon with ⟨h1, _⟩
          exact htne (List.append_eq_nil.mp h1).2
        · have hl : l = l.takeWhile isSpaceCh ++ l.dropWhile isSpaceCh :=
            (List.takeWhile_append_dropWhile isSpaceCh l).symm
          have hcc : (c :: cs) = (c :: cs).takeWhile isSpaceCh ++ rest := by
            rw [← h]; exact (List.takeWhile_append_dropWhile isSpaceCh (c :: cs)).symm
          calc l = l.takeWhile isSpaceCh ++ l.dropWhile isSpaceCh := hl
            _ = l.takeWhile isSpaceCh ++ (tok ++ (c :: cs)) := by rw [heq]
            _ = l.takeWhile isSpaceCh ++ (tok ++ ((c :: cs).takeWhile isSpaceCh ++ rest)) := by
                  rw [← hcc]
            _ = (l.takeWhile isSpaceCh ++ tok ++ (c :: cs).takeWhile isSpaceCh) ++ rest := by
                  simp [List.append_assoc]
        · refine ⟨l.takeWhile isSpaceCh, tok, (c :: cs).takeWhile isSpaceCh, rfl, ?_, ?_, ?_, hkind⟩
          · exact List.all_eq_true.mpr (fun x hx => List.mem_takeWhile_imp hx)
          · exact List.all_eq_true.mpr (fun x hx => List.mem_takeWhile_imp hx)
          · simp [List.takeWhile_cons_of_pos hsp]
      · simp only [Bool.not_eq_true] at hsp
        simp [hsp] at h

theorem splitGo_joins : ∀ (fuel : Nat) (acc l : List Char), l.length ≤ fuel →
    JoinsWithSeps (splitGo fuel acc l) (acc.reverse ++ l) := by
  intro fuel
  induction fuel with
  | zero =>
    intro acc l hl
    have : l = [] := List.length_eq_zero.mp (Nat.le_zero.mp hl)
    subst this
    simpa [splitGo] using JoinsWithSeps.single acc.reverse
  | succ fuel ih =>
    intro acc l hl
    cases l with
    | nil => simpa [splitGo] using JoinsWithSeps.single acc.reverse
    | cons c cs =>
      cases ht : trySepAt (c :: cs) with
      | some rest =>
        obtain ⟨s, hne, heq, hchunk⟩ := trySepAt_decomp ht
        have hlen : rest.length ≤ fuel := by
          have h1 : (c :: cs).length = s.length + rest.length := by
            rw [heq, List.length_append]
          have h2 : 1 ≤ s.length := List.length_pos.mpr hne
          simp only [List.length_cons] at h1 hl
          omega
        have hj := ih [] rest hlen
        simp only [List.reverse_nil, List.nil_append] at hj
        have := JoinsWithSeps.cons acc.reverse s rest hchunk hj
        simp only [splitGo, ht]
        rw [heq, ← List.append_assoc]
        exact this
      | none =>
        have := ih (c :: acc) cs (by simp only [List.length_cons] at hl; omega)
        simp only [splitGo, ht]
        simpa [List.append_assoc] using this

/-- Claim C4 (counterexample).  The separator regex has no word boundaries:
    `"sand castle"` is split inside the word `sand` (at `and` + space),
    contradicting the claim that words merely ending in `and` are safe. -/
theorem claim_C4_cex :
    splitCommands (str "sand castle") = [str "s", str "castle"] ∧
    splitCommands (str "sand castle") ≠ [str "sand castle"] := by
  constructor
  · decide
  · decide

/-- Claim C4 (amended).  Segmentation splits the instruction exactly at
    leftmost occurrences of `\s*(?:,|and|then)\s+` (case-insensitive): each
    consumed separator is optional whitespace, then a comma or the letter
    sequence `and`/`then` regardless of word boundaries, then at least one
    whitespace character; the parser then keeps only the segments that are
    nonempty after trimming. -/
theorem claim_C4 (instr : List Char) :
    JoinsWithSeps (splitCommands instr) instr ∧
    (parseInstruction instr).steps =
      (((splitCommands instr).map trim).filter (fun c => !c.isEmpty)).map parseCommand := by
  refine ⟨?_, rfl⟩
  have := splitGo_joins instr.length [] instr le_rfl
  simpa [splitCommands] using this

theorem firstSome_some {α β : Type} {f : α → Option β} {xs : List α} {b : β}
    (h : firstSome f xs = some b) : ∃ a ∈ xs, f a = some b := by
  induction xs with
  | nil => simp [firstSome] at h
  | cons x rest ih =>
    simp only [firstSome] at h
    revert h
    cases hx : f x with
    | some b' =>
      intro h
      have h' : b' = b := Option.some.inj h
      exact ⟨x, by simp, by rw [hx, h']⟩
    | none =>
      intro h
      obtain ⟨a, ha, hfa⟩ := ih h
      exact ⟨a, by simp [ha], hfa⟩

theorem takeWhile_take_eq {p : Char → Bool} {l : List Char} {k : Nat}
    (h : k ≤ (l.takeWhile p).length) : (l.takeWhile p).take k = l.take k := by
  obtain ⟨t, ht⟩ := List.takeWhile_prefix p (l := l)
  conv_rhs => rw [← ht]
  rw [List.take_append_of_le_length h]

theorem matchHexAt_decomp {l tok rest : List Char}
    (h : matchHexAt l = some (tok, rest)) :
    l = tok ++ rest ∧ codeColorToken tok = true := by
  unfold matchHexAt at h
  split at h
  case h_2 => exact absurd h (by simp)
  case h_1 cs =>
    by_cases hlen : 3 ≤ (cs.takeWhile isHexDigitCh).length
    · rw [if_pos hlen] at h
      simp only [Option.some.injEq, Prod.mk.injEq] at h
      obtain ⟨htok, hrest⟩ := h
      set run := cs.takeWhile isHexDigitCh with hrun
      set k := min run.length 6 with hk
      have hkle : k ≤ run.length := Nat.min_le_left _ _
      have htk : run.take k = cs.take k := takeWhile_take_eq hkle
      constructor
      · rw [← htok, ← hrest]
        simp only [List.cons_append, List.cons.injEq, true_and]
        rw [htk]
        exact (List.take_append_drop k cs).symm
      · rw [← htok]
        simp only [codeColorToken, Bool.or_eq_true, Bool.and_eq_true, decide_eq_true_eq]
        refine Or.inl ⟨⟨?_, ?_⟩, ?_⟩
        · exact List.all_eq_true.mpr (fun x hx =>
            List.mem_takeWhile_imp (List.mem_of_mem_take hx))
        · have : (run.take k).length = k := by
            simp [List.length_take, Nat.min_eq_left hkle]
          rw [this, hk]
          exact le_min hlen (by norm_num)
        · have : (run.take k).length = k := by
            simp [List.length_take, Nat.min_eq_left hkle]
          rw [this, hk]
          exact Nat.min_le_right _ _
    · rw [if_neg hlen] at h
      exact absurd h (by simp)

theorem matchNameAt_decomp {prev : Option Char} {l tok rest : List Char}
    (h : matchNameAt prev l = some (tok, rest)) :
    l = tok ++ rest ∧ codeColorToken tok = true := by
  unfold matchNameAt at h
  by_cases hb : boundaryL prev = true
  · rw [if_pos hb] at h
    obtain ⟨name, hmem, hf⟩ := firstSome_some h
    revert hf
    cases hci : ciPrefixRest name l with
    | none =>
      intro hf
      exact Option.noConfusion hf
    | some r' =>
      intro hf
      have hf' : (if boundaryR r' = true then some (l.take name.length, r')
          else (none : Option (List Char × List Char))) = some (tok, rest) := hf
      by_cases hbr : boundaryR r' = true
      · rw [if_pos hbr] at hf'
        simp only [Option.some.injEq, Prod.mk.injEq] at hf'
        obtain ⟨htok, hrest⟩ := hf'
        obtain ⟨tok', heq, hlen, hlow⟩ := ciPrefixRest_decomp hci
        have htok' : tok = tok' := by
          rw [← htok, heq, ← hlen, List.take_left]
        constructor
        · rw [htok', heq, hrest]
        · simp only [codeColorToken, Bool.or_eq_true]
          refine Or.inr ?_
          have : lowerStr tok = name := by rw [htok', hlow]
          rw [this]
          exact List.elem_eq_true_of_mem hmem
      · rw [if_neg hbr] at hf'
        exact Option.noConfusion hf'
  · rw [if_neg hb] at h
    exact absurd h (by simp)

theorem findColorsGo_spec : ∀ (fuel : Nat) (prev : Option Char) (l : List Char),
    Appears (findColorsGo fuel prev l) l ∧
      ∀ t ∈ findColorsGo fuel prev l, codeColorToken t = true := by
  intro fuel
  induction fuel with
  | zero => intro prev l; exact ⟨by simpa [findColorsGo] using Appears.nil l, by simp [findColorsGo]⟩
  | succ fuel ih =>
    intro prev l
    cases l with
    | nil => exact ⟨by simpa [findColorsGo] using Appears.nil [], by simp [findColorsGo]⟩
    | cons c cs =>
      cases hh : matchHexAt (c :: cs) with
      | some pr =>
        obtain ⟨tok, rest⟩ := pr
        obtain ⟨heq, hshape⟩ := matchHexAt_decomp hh
        obtain ⟨hap, hall⟩ := ih tok.getLast? rest
        simp only [findColorsGo, hh]
        constructor
        · rw [heq]; exact Appears.tok tok hap
        · intro t ht
          rcases List.mem_cons.mp ht with rfl | ht'
          · exact hshape
          · exact hall t ht'
      | none =>
        cases hn : matchNameAt prev (c :: cs) with
        | some pr =>
          obtain ⟨tok, rest⟩ := pr
          obtain ⟨heq, hshape⟩ := matchNameAt_decomp hn
          obtain ⟨hap, hall⟩ := ih tok.getLast? rest
          simp only [findColorsGo, hh, hn]
          constructor
          · rw [heq]; exact Appears.tok tok hap
          · intro t ht
            rcases List.mem_cons.mp ht with rfl | ht'
            · exact hshape
            · exact hall t ht'
        | none =>
          obtain ⟨hap, hall⟩ := ih (some c) cs
          simp only [findColorsGo, hh, hn]
          exact ⟨Appears.skip c hap, hall⟩

/-- Claim C5 (counterexample).  The hex alternative of the color regex is
    `#[0-9a-fA-F]{3,6}`: the four-digit token `#abcd` (neither 3 nor 6
    digits) is extracted and becomes a stop color, where the claim predicts
    the default fallback stops. -/
theorem claim_C5_cex :
    findColors (str "#abcd #1234") = [str "#abcd", str "#1234"] ∧
    specColorToken (str "#abcd") = false ∧
    (parseCommand (str "#abcd #1234")).gradient.stops =
      [⟨0, str "#abcd"⟩, ⟨100, str "#1234"⟩] := by
  refine ⟨by decide, by decide, by decide⟩

/-- Claim C5 (amended).  Every extracted color token matches `#` followed by
    3 to 6 hex digits or a known color name (case-insensitive); tokens are
    taken disjointly in left-to-right order of appearance; the first two,
    normalized, become the stops at offsets 0 and 100, and fewer than two
    colors yield the default `#ff0000`/`#0000ff` stops. -/
theorem claim_C5 (cmd : List Char) :
    Appears (findColors cmd) cmd ∧
    (∀ t ∈ findColors cmd, codeColorToken t = true) ∧
    (((findColors cmd).map getHexColor).length < 2 →
      (parseCommand cmd).gradient.stops = [⟨0, str "#ff0000"⟩, ⟨100, str "#0000ff"⟩]) ∧
    (∀ c1 c2 cr, (findColors cmd).map getHexColor = c1 :: c2 :: cr →
      (parseCommand cmd).gradient.stops = [⟨0, c1⟩, ⟨100, c2⟩]) := by
  obtain ⟨hap, hall⟩ := findColorsGo_spec cmd.length none cmd
  refine ⟨hap, hall, ?_, ?_⟩
  · intro hlt
    unfold parseCommand
    cases hc : (findColors cmd).map getHexColor with
    | nil => simp [hc]
    | cons c1 t =>
      cases t with
      | nil => simp [hc]
      | cons c2 t2 =>
        rw [hc] at hlt
        simp only [List.length_cons] at hlt
        omega
  · intro c1 c2 cr hc
    unfold parseCommand
    simp [hc]

theorem claim_C5_witness :
    Appears (findColors (str "from red to #ABC12 blue")) (str "from red to #ABC12 blue") ∧
    codeColorToken (str "red") = true ∧
    (parseCommand (str "from red to #ABC12 blue")).gradient.stops =
      [⟨0, str "#ff0000"⟩, ⟨100, str "#ABC12"⟩] := by
  have h := claim_C5 (str "from red to #ABC12 blue")
  exact ⟨h.1, h.2.1 (str "red") (by decide),
    h.2.2.2 (str "#ff0000") (str "#ABC12") [str "#0000ff"] (by decide)⟩

-- -----------------------------------------------------------------------
-- Validator claims
-- -----------------------------------------------------------------------

theorem refMsg_head (r : List Char) : (refMsg r).head? = some 'G' := rfl

theorem refMsg_ne_mustFollow (r : List Char) : refMsg r ≠ mustFollowMsg := by
  intro h
  have h1 := congrArg List.head? h
  rw [refMsg_head] at h1
  exact absurd h1 (by decide)

theorem validateSvg_errors (svg : List Char) :
    (validateSvg svg).errors = rootErrs svg ++ defsErrs svg ++ refErrs svg := rfl

/-- Claim C6 (counterexample).  On a document whose definitions open marker
    precedes both the (absent) close marker and the end of the root tag's
    opening bracket, the validator reports only the improperly-structured
    error: the `elif` skips the must-follow check. -/
theorem claim_C6_cex :
    validateSvg (str "<defs><svg>x") = ⟨false, [rootMsg, improperMsg]⟩ ∧
    mustFollowMsg ∉ (validateSvg (str "<defs><svg>x")).errors := by
  refine ⟨by decide, by decide⟩

/-- Claim C6 (amended).  The two definitions checks are sequential, not
    independent: whenever the close marker does not appear strictly after
    the open marker, the report contains the improperly-structured error and
    never the must-follow-the-root-tag error, regardless of the block's
    position relative to the root tag. -/
theorem claim_C6 (svg : List Char)
    (h1 : containsSub svg defsOpen = true)
    (h2 : pyFind svg defsClose ≤ pyFind svg defsOpen) :
    improperMsg ∈ (validateSvg svg).errors ∧
    mustFollowMsg ∉ (validateSvg svg).errors := by
  have hdefs : defsErrs svg = [improperMsg] := by
    unfold defsErrs
    rw [if_pos h1, if_pos h2]
  rw [validateSvg_errors, hdefs]
  constructor
  · simp
  · intro hmem
    rcases List.mem_append.mp hmem with hmem' | hmem'
    · rcases List.mem_append.mp hmem' with hroot | himp
      · unfold rootErrs at hroot
        by_cases hro : rootOk svg = true
        · rw [if_pos hro] at hroot; simp at hroot
        · rw [if_neg hro] at hroot
          simp only [List.mem_singleton] at hroot
          exact absurd hroot (by decide)
      · simp only [List.mem_singleton] at himp
        exact absurd himp (by decide)
    · unfold refErrs at hmem'
      obtain ⟨r, _, hr⟩ := List.mem_map.mp hmem'
      exact refMsg_ne_mustFollow r hr

theorem claim_C6_witness :
    containsSub (str "<svg><defs>x") defsOpen = true ∧
    pyFind (str "<svg><defs>x") defsClose ≤ pyFind (str "<svg><defs>x") defsOpen ∧
    improperMsg ∈ (validateSvg (str "<svg><defs>x")).errors ∧
    mustFollowMsg ∉ (validateSvg (str "<svg><defs>x")).errors := by
  have h := claim_C6 (str "<svg><defs>x") (by decide) (by decide)
  exact ⟨by decide, by decide, h.1, h.2⟩

theorem containsSub_middle (a pat b : List Char) :
    containsSub (a ++ pat ++ b) pat = true := by
  induction a with
  | nil =>
    cases pat with
    | nil =>
      cases b with
      | nil => rfl
      | cons c cs => simp [containsSub, List.isPrefixOf]
    | cons p ps =>
      simp only [List.nil_append, List.cons_append, containsSub, Bool.or_eq_true]
      exact Or.inl (by
        have h : (p :: ps) <+: (p :: ps) ++ b := List.prefix_append _ _
        simp [List.isPrefixOf_iff_prefix, h])
  | cons c a' ih =>
    simp only [List.cons_append, containsSub, Bool.or_eq_true]
    exact Or.inr ih

theorem refMsg_contains (r : List Char) : containsSub (refMsg r) r = true := by
  have := containsSub_middle (str "Gradient reference '") r
    (str "' lacks corresponding definition")
  simpa [refMsg] using this

theorem countP_defsErrs (svg : List Char) (p : List Char → Bool)
    (h2 : p improperMsg = false) (h3 : p mustFollowMsg = false) :
    (defsErrs svg).countP p = 0 := by
  unfold defsErrs
  by_cases hco : containsSub svg defsOpen = true
  · rw [if_pos hco]
    by_cases hde : pyFind svg defsClose ≤ pyFind svg defsOpen
    · rw [if_pos hde]
      simp [List.countP_cons, h2]
    · rw [if_neg hde]
      by_cases hds : pyFind svg defsOpen < pyFindFrom svg ['>'] (pyFind svg (str "<svg"))
      · rw [if_pos hds]
        simp [List.countP_cons, h3]
      · rw [if_neg hds]
        simp
  · rw [if_neg hco]
    simp

theorem countP_rootErrs (svg : List Char) (p : List Char → Bool)
    (h1 : p rootMsg = false) : (rootErrs svg).countP p = 0 := by
  unfold rootErrs
  split_ifs <;> simp [List.countP_cons, h1]

/-- Claim C7 (counterexample).  The reference scan collects every
    `url(#...)` occurrence, not only fill values: a document with exactly
    one fill reference but a second textual `url(#g1)` yields two errors
    mentioning `g1`, not exactly one. -/
theorem claim_C7_cex :
    (validateSvg (str "<svg><rect fill=\"url(#g1)\"/> url(#g1)</svg>")).errors =
      [refMsg (str "g1"), refMsg (str "g1")] ∧
    ((validateSvg (str "<svg><rect fill=\"url(#g1)\"/> url(#g1)</svg>")).errors.countP
      (fun m => containsSub m (str "g1"))) = 2 := by
  refine ⟨by decide, by decide⟩

/-- Claim C7 (amended).  References are collected from every `url(#...)`
    occurrence anywhere in the document (not only fill values).  When the
    collected reference list is exactly `[r]` and no id attribute matches
    `r`, the report contains exactly one entry mentioning `r` (provided `r`
    does not occur in the three fixed messages); when `r` has a matching id
    attribute, the reference-consistency check contributes no errors. -/
theorem claim_C7 :
    (∀ svg r, pyRefs svg = [r] → r ∉ pyIds svg →
      containsSub rootMsg r = false → containsSub improperMsg r = false →
      containsSub mustFollowMsg r = false →
      (validateSvg svg).errors.countP (fun m => containsSub m r) = 1) ∧
    (∀ svg r, pyRefs svg = [r] → r ∈ pyIds svg →
      refErrs svg = []) := by
  constructor
  · intro svg r hr hid h1 h2 h3
    have href : refErrs svg = [refMsg r] := by
      simp [refErrs, hr, hid]
    rw [validateSvg_errors, href]
    rw [List.countP_append, List.countP_append]
    rw [countP_rootErrs svg _ h1, countP_defsErrs svg _ h2 h3]
    simp [List.countP_cons, refMsg_contains r]
  · intro svg r hr hid
    simp [refErrs, hr, hid]

theorem claim_C7_witness :
    (validateSvg (str "<svg><rect fill=\"url(#gradX)\"/></svg>")).errors.countP
      (fun m => containsSub m (str "gradX")) = 1 ∧
    refErrs (str "<svg><g id=\"gradX\" fill=\"url(#gradX)\"/></svg>") = [] := by
  constructor
  · exact claim_C7.1 (str "<svg><rect fill=\"url(#gradX)\"/></svg>") (str "gradX")
      (by decide) (by decide) (by decide) (by decide) (by decide)
  · exact claim_C7.2 (str "<svg><g id=\"gradX\" fill=\"url(#gradX)\"/></svg>") (str "gradX")
      (by decide) (by decide)

-- -----------------------------------------------------------------------
-- String-scanning lemmas for the patcher proofs
-- -----------------------------------------------------------------------

theorem containsSub_spec {l pat : List Char} :
    containsSub l pat = true ↔ pat <:+: l := by
  induction l with
  | nil => simp [containsSub, List.isEmpty_iff]
  | cons c cs ih =>
    simp only [containsSub, Bool.or_eq_true, List.isPrefixOf_iff_prefix, ih,
      List.infix_cons_iff]

theorem splitsOn_mem {pat : List Char} :
    ∀ {l pre post : List Char}, (pre, post) ∈ splitsOn pat l → l = pre ++ pat ++ post := by
  intro l
  induction l with
  | nil =>
    intro pre post h
    simp only [splitsOn] at h
    by_cases hp : pat.isEmpty
    · rw [if_pos hp] at h
      simp only [List.mem_singleton, Prod.mk.injEq] at h
      obtain ⟨rfl, rfl⟩ := h
      simp [List.isEmpty_iff.mp hp]
    · rw [if_neg hp] at h
      simp at h
  | cons c cs ih =>
    intro pre post h
    simp only [splitsOn, List.mem_append] at h
    rcases h with h | h
    · by_cases hp : pat.isPrefixOf (c :: cs) = true
      · rw [if_pos hp] at h
        simp only [List.mem_singleton, Prod.mk.injEq] at h
        obtain ⟨rfl, rfl⟩ := h
        obtain ⟨t, ht⟩ := List.isPrefixOf_iff_prefix.mp hp
        rw [List.nil_append, ← ht, List.drop_left]
      · rw [if_neg hp] at h
        simp at h
    · obtain ⟨⟨pre', post'⟩, hmem, heq⟩ := List.mem_map.mp h
      simp only [Prod.mk.injEq] at heq
      obtain ⟨rfl, rfl⟩ := heq
      have := ih hmem
      simp [this]

theorem splitsOn_complete {pat : List Char} :
    ∀ {pre post : List Char}, (pre, post) ∈ splitsOn pat (pre ++ pat ++ post) := by
  intro pre
  induction pre with
  | nil =>
    intro post
    cases hp : pat with
    | nil =>
      subst hp
      cases post with
      | nil => simp [splitsOn]
      | cons x xs => simp [splitsOn, List.isPrefixOf]
    | cons p ps =>
      subst hp
      have hpre : ((p :: ps).isPrefixOf (p :: (ps ++ post))) = true := by
        rw [List.isPrefixOf_iff_prefix]
        have h := List.prefix_append (p :: ps) post
        simp only [List.cons_append] at h
        exact h
      simp only [List.nil_append, List.cons_append, splitsOn, hpre, if_true]
      refine List.mem_append.mpr (Or.inl ?_)
      have hdr : (p :: (ps ++ post)).drop (p :: ps).length = post := by
        rw [show p :: (ps ++ post) = (p :: ps) ++ post from rfl, List.drop_left]
      simp [hdr]
  | cons c pre' ih =>
    intro post
    simp only [List.cons_append, splitsOn, List.mem_append]
    refine Or.inr ?_
    exact List.mem_map.mpr ⟨(pre', post), ih, rfl⟩

theorem firstSome_of_mem {α β : Type} {f : α → Option β} {xs : List α} {a : α} {b : β}
    (hmem : a ∈ xs) (hf : f a = some b) : ∃ b', firstSome f xs = some b' := by
  induction xs with
  | nil => simp at hmem
  | cons x rest ih =>
    simp only [firstSome]
    cases hx : f x with
    | some b' => exact ⟨b', rfl⟩
    | none =>
      rcases List.mem_cons.mp hmem with rfl | hmem'
      · rw [hx] at hf; exact absurd hf (by simp)
      · exact ih hmem'

theorem findMatch_decomp {tryM : List Char → Option (List Char × List Char)} :
    ∀ {l pre grp rest : List Char}, findMatch tryM l = some (pre, grp, rest) →
      ∃ suf, l = pre ++ suf ∧ tryM suf = some (grp, rest) := by
  intro l
  induction l with
  | nil => intro pre grp rest h; exact Option.noConfusion h
  | cons c cs ih =>
    intro pre grp rest h
    simp only [findMatch] at h
    revert h
    cases ht : tryM (c :: cs) with
    | some pr =>
      intro h
      obtain ⟨grp', rest'⟩ := pr
      have h' : (([] : List Char), grp', rest') = (pre, grp, rest) := Option.some.inj h
      simp only [Prod.mk.injEq] at h'
      obtain ⟨rfl, rfl, rfl⟩ := h'
      exact ⟨c :: cs, rfl, ht⟩
    | none =>
      intro h
      cases hm : findMatch tryM cs with
      | none => rw [hm] at h; exact Option.noConfusion h
      | some t =>
        rw [hm] at h
        obtain ⟨pre', grp', rest'⟩ := t
        have h' : (c :: pre', grp', rest') = (pre, grp, rest) := Option.some.inj h
        simp only [Prod.mk.injEq] at h'
        obtain ⟨rfl, rfl, rfl⟩ := h'
        obtain ⟨suf, hsuf, htry⟩ := ih hm
        exact ⟨suf, by simp [hsuf], htry⟩

theorem findMatch_none {tryM : List Char → Option (List Char × List Char)}
    (hnil : tryM [] = none) :
    ∀ {l : List Char}, findMatch tryM l = none →
      ∀ pre suf : List Char, l = pre ++ suf → tryM suf = none := by
  intro l
  induction l with
  | nil =>
    intro _ pre suf hps
    have hsuf : suf = [] := (List.append_eq_nil.mp hps.symm).2
    rw [hsuf]
    exact hnil
  | cons c cs ih =>
    intro h pre suf hps
    simp only [findMatch] at h
    revert h
    cases ht : tryM (c :: cs) with
    | some pr => intro h; exact Option.noConfusion h
    | none =>
      intro h
      have hm : findMatch tryM cs = none := by
        cases hm : findMatch tryM cs with
        | none => rfl
        | some t => rw [hm] at h; simp at h
      cases pre with
      | nil =>
        simp only [List.nil_append] at hps
        rw [← hps]
        exact ht
      | cons c' pre' =>
        simp only [List.cons_append, List.cons.injEq] at hps
        exact ih hm pre' suf hps.2

theorem takeWhile_lt_decomp {p : Char → Bool} :
    ∀ {w : List Char}, (w.takeWhile p).length < w.length →
      ∃ c, p c = false ∧ w = w.takeWhile p ++ c :: w.drop ((w.takeWhile p).length + 1) := by
  intro w
  induction w with
  | nil => intro h; simp at h
  | cons a as ih =>
    intro h
    by_cases hp : p a = true
    · rw [List.takeWhile_cons_of_pos hp] at h ⊢
      simp only [List.length_cons, Nat.add_lt_add_iff_right] at h
      obtain ⟨c, hc, hdec⟩ := ih h
      refine ⟨c, hc, ?_⟩
      simp only [List.length_cons, List.drop_succ_cons]
      rw [List.cons_append]
      rw [← hdec]
    · have hp' : p a = false := by simpa using hp
      rw [List.takeWhile_cons_of_neg (by simp [hp'])]
      exact ⟨a, hp', by simp⟩

theorem countOcc_cons_ge {pat : List Char} {c : Char} {l : List Char} :
    countOcc pat l ≤ countOcc pat (c :: l) := by
  simp only [countOcc]
  split_ifs <;> omega

theorem countOcc_append_ge {pat x : List Char} :
    ∀ {y : List Char}, countOcc pat y ≤ countOcc pat (x ++ y) := by
  induction x with
  | nil => intro y; simp
  | cons c cs ih =>
    intro y
    calc countOcc pat y ≤ countOcc pat (cs ++ y) := ih
      _ ≤ countOcc pat (c :: (cs ++ y)) := countOcc_cons_ge
      _ = countOcc pat ((c :: cs) ++ y) := by simp

theorem countOcc_occurrence {pat : List Char} (hne : pat ≠ []) :
    ∀ {x y : List Char}, 1 ≤ countOcc pat (x ++ pat ++ y) := by
  intro x
  induction x with
  | nil =>
    intro y
    have hpre : pat.isPrefixOf (pat ++ y) = true := by
      rw [List.isPrefixOf_iff_prefix]; exact List.prefix_append _ _
    obtain ⟨z, zs, hl⟩ : ∃ z zs, pat ++ y = z :: zs := by
      cases hpy : pat ++ y with
      | nil => exact absurd (List.append_eq_nil.mp hpy).1 hne
      | cons z zs => exact ⟨z, zs, rfl⟩
    rw [List.nil_append, hl]
    simp only [countOcc, ← hl, hpre, if_true]
    omega
  | cons c cs ih =>
    intro y
    calc (1 : Nat) ≤ countOcc pat (cs ++ pat ++ y) := ih
      _ ≤ countOcc pat (c :: (cs ++ pat ++ y)) := countOcc_cons_ge
      _ = countOcc pat ((c :: cs) ++ pat ++ y) := by simp

theorem countOcc_two {pat : List Char} (hne : pat ≠ []) :
    ∀ {x1 y1 x2 y2 : List Char}, x1.length < x2.length →
      x1 ++ pat ++ y1 = x2 ++ pat ++ y2 →
      2 ≤ countOcc pat (x1 ++ pat ++ y1) := by
  intro x1
  induction x1 with
  | nil =>
    intro y1 x2 y2 hlt heq
    have hx2 : x2 ≠ [] := by
      intro hx; rw [hx] at hlt; simp at hlt
    obtain ⟨c2, x2', rfl⟩ := List.exists_cons_of_ne_nil hx2
    have hpre : pat.isPrefixOf (pat ++ y1) = true := by
      rw [List.isPrefixOf_iff_prefix]; exact List.prefix_append _ _
    obtain ⟨z, zs, hl⟩ : ∃ z zs, pat ++ y1 = z :: zs := by
      cases hpy : pat ++ y1 with
      | nil => exact absurd (List.append_eq_nil.mp hpy).1 hne
      | cons z zs => exact ⟨z, zs, rfl⟩
    have htail : zs = x2' ++ pat ++ y2 := by
      have h1 : z :: zs = (c2 :: x2') ++ pat ++ y2 := by
        rw [← hl]
        simpa using heq
      simpa using congrArg List.tail h1
    have hcount : 1 ≤ countOcc pat zs := by
      rw [htail]
      exact countOcc_occurrence hne
    rw [List.nil_append, hl]
    simp only [countOcc, ← hl, hpre, if_true]
    omega
  | cons c x1' ih =>
    intro y1 x2 y2 hlt heq
    have hx2 : x2 ≠ [] := by
      intro hx
      rw [hx] at hlt
      simp at hlt
    obtain ⟨c2, x2', rfl⟩ := List.exists_cons_of_ne_nil hx2
    have hc : c = c2 := by simpa using congrArg (fun l => l.head?) heq
    have htail : x1' ++ pat ++ y1 = x2' ++ pat ++ y2 := by
      simpa using congrArg List.tail heq
    have hlt' : x1'.length < x2'.length := by
      simp only [List.length_cons] at hlt; omega
    calc (2 : Nat) ≤ countOcc pat (x1' ++ pat ++ y1) := ih hlt' htail
      _ ≤ countOcc pat (c :: (x1' ++ pat ++ y1)) := countOcc_cons_ge
      _ = countOcc pat ((c :: x1') ++ pat ++ y1) := by simp

/-- Occurrence-freedom of `pat` at every position strictly inside `l`
    (viewed as a prefix of `l ++ rest`). -/
def noOccBefore (pat l rest : List Char) : Bool :=
  match l with
  | [] => true
  | c :: cs => !(pat.isPrefixOf (c :: cs ++ rest)) && noOccBefore pat cs rest

theorem splitFirst_structure {pat : List Char} (hne : pat ≠ []) :
    ∀ {l rest' : List Char}, noOccBefore pat l (pat ++ rest') = true →
      splitFirst pat (l ++ pat ++ rest') = some (l, rest') := by
  intro l
  induction l with
  | nil =>
    intro rest' _
    obtain ⟨z, zs, hl⟩ : ∃ z zs, pat ++ rest' = z :: zs := by
      cases hpy : pat ++ rest' with
      | nil => exact absurd (List.append_eq_nil.mp hpy).1 hne
      | cons z zs => exact ⟨z, zs, rfl⟩
    have hpre : pat.isPrefixOf (pat ++ rest') = true := by
      rw [List.isPrefixOf_iff_prefix]; exact List.prefix_append _ _
    rw [List.nil_append, hl]
    simp only [splitFirst, ← hl, hpre, if_true]
    rw [List.drop_left]
  | cons c cs ih =>
    intro rest' hno
    simp only [noOccBefore, Bool.and_eq_true, Bool.not_eq_true'] at hno
    obtain ⟨hnp, hno'⟩ := hno
    have hgoal : (c :: cs) ++ pat ++ rest' = c :: (cs ++ pat ++ rest') := by simp
    rw [hgoal]
    have hcond : pat.isPrefixOf (c :: (cs ++ pat ++ rest')) = false := by
      have hass : c :: (cs ++ pat ++ rest') = c :: cs ++ (pat ++ rest') := by simp
      rw [hass]
      exact hnp
    rw [show splitFirst pat (c :: (cs ++ pat ++ rest')) =
        (if pat.isPrefixOf (c :: (cs ++ pat ++ rest')) then
          some ([], (c :: (cs ++ pat ++ rest')).drop pat.length)
        else (splitFirst pat (cs ++ pat ++ rest')).map (fun pr => (c :: pr.1, pr.2))) from rfl]
    rw [hcond]
    simp only [Bool.false_eq_true, if_false]
    rw [ih hno']
    rfl

theorem splitFirst_none {pat : List Char} (hne : pat ≠ []) :
    ∀ {l : List Char}, noOccBefore pat l [] = true → splitFirst pat l = none := by
  intro l
  induction l with
  | nil =>
    intro _
    simp [splitFirst, List.isEmpty_iff, hne]
  | cons c cs ih =>
    intro hno
    simp only [noOccBefore, Bool.and_eq_true, Bool.not_eq_true'] at hno
    obtain ⟨hnp, hno'⟩ := hno
    have hnp' : pat.isPrefixOf (c :: cs) = false := by simpa using hnp
    simp only [splitFirst, hnp', Bool.false_eq_true, if_false, ih hno', Option.map_none']

theorem replaceDefsGo_id {block l : List Char} (h : splitFirst defsOpen l = none) :
    ∀ fuel, replaceDefsGo block fuel l = l := by
  intro fuel
  cases fuel with
  | zero => rfl
  | succ fuel => simp only [replaceDefsGo, h]

/-- Claim C3 (counterexample).  A document containing the open marker
    `<defs>` but no complete block takes the replace branch, which finds no
    match: nothing is replaced and nothing is inserted after the root tag,
    so the synthesized fragments are lost. -/
theorem claim_C3_cex :
    applyGradients (str "<svg><defs>x")
        ⟨[⟨[⟨str "#zzz", str "d"⟩],
           ⟨str "linear", str "horizontal",
            [⟨0, str "#ff0000"⟩, ⟨100, str "#0000ff"⟩]⟩⟩]⟩ =
      str "<svg><defs>x" ∧
    containsSub (applyGradients (str "<svg><defs>x")
        ⟨[⟨[⟨str "#zzz", str "d"⟩],
           ⟨str "linear", str "horizontal",
            [⟨0, str "#ff0000"⟩, ⟨100, str "#0000ff"⟩]⟩⟩]⟩) defsClose = false := by
  refine ⟨by decide, by decide⟩

/-- Claim C3 (amended).  The branch condition is the presence of the open
    marker `<defs>` in the fill-patched text, not of a complete block: when
    the patched text decomposes as `P ++ <defs> ++ M ++ </defs> ++ Q` with
    the markers occurring nowhere else, `apply_gradients` replaces the whole
    old block with the newly combined block, yielding `P ++ block ++ Q`; an
    open marker without a following close marker yields no replacement and
    no insertion at all. -/
theorem claim_C3 (doc : List Char) (spec : Specification) (P M Q : List Char)
    (hps : (patchedOf doc spec).2 = P ++ defsOpen ++ M ++ defsClose ++ Q)
    (hP : noOccBefore defsOpen P (defsOpen ++ M ++ defsClose ++ Q) = true)
    (hM : noOccBefore defsClose M (defsClose ++ Q) = true)
    (hQ : noOccBefore defsOpen Q [] = true) :
    applyGradients doc spec = P ++ blockOf doc spec ++ Q := by
  have hno : defsOpen ≠ [] := by decide
  have hnc : defsClose ≠ [] := by decide
  have hP' : noOccBefore defsOpen P (defsOpen ++ (M ++ defsClose ++ Q)) = true := by
    have hass : defsOpen ++ (M ++ defsClose ++ Q) = defsOpen ++ M ++ defsClose ++ Q := by
      simp [List.append_assoc]
    rw [hass]
    exact hP
  have hsplit1 : splitFirst defsOpen ((patchedOf doc spec).2) =
      some (P, M ++ defsClose ++ Q) := by
    rw [hps]
    have := splitFirst_structure hno hP'
    have hass : P ++ defsOpen ++ (M ++ defsClose ++ Q) = P ++ defsOpen ++ M ++ defsClose ++ Q := by
      simp [List.append_assoc]
    rw [hass] at this
    exact this
  have hsplit2 : splitFirst defsClose (M ++ defsClose ++ Q) = some (M, Q) :=
    splitFirst_structure hnc hM
  have hcon : containsSub ((patchedOf doc spec).2) defsOpen = true := by
    rw [hps]
    have := containsSub_middle (P) defsOpen (M ++ defsClose ++ Q)
    have hass : P ++ defsOpen ++ (M ++ defsClose ++ Q) = P ++ defsOpen ++ M ++ defsClose ++ Q := by
      simp [List.append_assoc]
    rw [hass] at this
    exact this
  obtain ⟨m, hm⟩ : ∃ m, ((patchedOf doc spec).2).length = m + 1 := by
    have hlen : 0 < ((patchedOf doc spec).2).length := by
      rw [hps]
      simp [defsOpen, str]
    exact ⟨((patchedOf doc spec).2).length - 1, by omega⟩
  show placeDefs (blockOf doc spec) ((patchedOf doc spec).2) = _
  unfold placeDefs
  rw [if_pos hcon]
  unfold replaceDefsAll
  rw [hm]
  simp only [replaceDefsGo, hsplit1, hsplit2]
  rw [replaceDefsGo_id (splitFirst_none hno hQ)]

theorem claim_C3_witness :
    applyGradients (str "<svg><defs>old</defs><rect id=\"hero\" fill=\"red\"/></svg>")
        ⟨[⟨[⟨str "#hero", str "d"⟩],
           ⟨str "radial", str "horizontal",
            [⟨0, str "#ff0000"⟩, ⟨100, str "#0000ff"⟩]⟩⟩]⟩ =
      str "<svg>" ++
        blockOf (str "<svg><defs>old</defs><rect id=\"hero\" fill=\"red\"/></svg>")
          ⟨[⟨[⟨str "#hero", str "d"⟩],
             ⟨str "radial", str "horizontal",
              [⟨0, str "#ff0000"⟩, ⟨100, str "#0000ff"⟩]⟩⟩]⟩ ++
        str "<rect id=\"hero\" fill=\"url(#grad1)\"/></svg>" :=
  claim_C3 (str "<svg><defs>old</defs><rect id=\"hero\" fill=\"red\"/></svg>")
    ⟨[⟨[⟨str "#hero", str "d"⟩],
       ⟨str "radial", str "horizontal",
        [⟨0, str "#ff0000"⟩, ⟨100, str "#0000ff"⟩]⟩⟩]⟩
    (str "<svg>") (str "old") (str "<rect id=\"hero\" fill=\"url(#grad1)\"/></svg>")
    (by decide) (by decide) (by decide) (by decide)

theorem infix_append_decomp {x y pat : List Char} (h : pat <:+: x ++ y) :
    pat <:+: x ∨ pat <:+: y ∨
      ∃ p1 p2, pat = p1 ++ p2 ∧ p1 ≠ [] ∧ p2 ≠ [] ∧ p1 <:+ x ∧ p2 <+: y := by
  obtain ⟨s, t, hst⟩ := h
  by_cases h1 : s.length + pat.length ≤ x.length
  · left
    have hxeq : x = s ++ (pat ++ t.take (x.length - s.length - pat.length)) := by
      calc x = (x ++ y).take x.length := by rw [List.take_left]
        _ = (s ++ (pat ++ t)).take x.length := by rw [← hst, List.append_assoc]
        _ = s.take x.length ++ (pat ++ t).take (x.length - s.length) :=
              List.take_append_eq_append_take
        _ = s ++ (pat ++ t).take (x.length - s.length) := by
              rw [List.take_of_length_le (by omega)]
        _ = s ++ (pat.take (x.length - s.length) ++
              t.take (x.length - s.length - pat.length)) := by
              rw [List.take_append_eq_append_take]
        _ = s ++ (pat ++ t.take (x.length - s.length - pat.length)) := by
              rw [List.take_of_length_le (by omega)]
    refine ⟨s, t.take (x.length - s.length - pat.length), ?_⟩
    conv_rhs => rw [hxeq]
    rw [List.append_assoc]
  · by_cases h2 : x.length ≤ s.length
    · right; left
      have hyeq : y = s.drop x.length ++ (pat ++ t) := by
        calc y = (x ++ y).drop x.length := by rw [List.drop_left]
          _ = (s ++ (pat ++ t)).drop x.length := by rw [← hst, List.append_assoc]
          _ = s.drop x.length ++ (pat ++ t).drop (x.length - s.length) :=
                List.drop_append_eq_append_drop
          _ = s.drop x.length ++ (pat ++ t) := by
                rw [Nat.sub_eq_zero_of_le h2, List.drop_zero]
      exact ⟨s.drop x.length, t, by rw [hyeq, List.append_assoc]⟩
    · right; right
      push_neg at h1 h2
      have hk1 : x.length - s.length ≤ pat.length := by omega
      have hxeq : x = s ++ pat.take (x.length - s.length) := by
        calc x = (x ++ y).take x.length := by rw [List.take_left]
          _ = (s ++ (pat ++ t)).take x.length := by rw [← hst, List.append_assoc]
          _ = s.take x.length ++ (pat ++ t).take (x.length - s.length) :=
                List.take_append_eq_append_take
          _ = s ++ (pat ++ t).take (x.length - s.length) := by
                rw [List.take_of_length_le (by omega)]
          _ = s ++ pat.take (x.length - s.length) := by
                rw [List.take_append_of_le_length hk1]
      have hyeq : y = pat.drop (x.length - s.length) ++ t := by
        calc y = (x ++ y).drop x.length := by rw [List.drop_left]
          _ = (s ++ (pat ++ t)).drop x.length := by rw [← hst, List.append_assoc]
          _ = s.drop x.length ++ (pat ++ t).drop (x.length - s.length) :=
                List.drop_append_eq_append_drop
          _ = (pat ++ t).drop (x.length - s.length) := by
                rw [List.drop_eq_nil_of_le (by omega), List.nil_append]
          _ = pat.drop (x.length - s.length) ++ t.drop ((x.length - s.length) - pat.length) :=
                List.drop_append_eq_append_drop
          _ = pat.drop (x.length - s.length) ++ t := by
                rw [Nat.sub_eq_zero_of_le hk1, List.drop_zero]
      refine ⟨pat.take (x.length - s.length), pat.drop (x.length - s.length),
        (List.take_append_drop _ _).symm, ?_, ?_, ⟨s, hxeq.symm⟩, ⟨t, hyeq.symm⟩⟩
      · intro hcon
        have := congrArg List.length hcon
        simp only [List.length_take, List.length_nil] at this
        omega
      · intro hcon
        have := congrArg List.length hcon
        simp only [List.length_drop, List.length_nil] at this
        omega

theorem natDigitsGo_digits :
    ∀ (fuel n : Nat) (c : Char), c ∈ natDigitsGo fuel n → ∃ m, m < 10 ∧ c = Char.ofNat (48 + m) := by
  intro fuel
  induction fuel with
  | zero => intro n c h; simp [natDigitsGo] at h
  | succ fuel ih =>
    intro n c h
    simp only [natDigitsGo] at h
    by_cases hn : n < 10
    · rw [if_pos hn] at h
      simp only [List.mem_singleton] at h
      exact ⟨n, hn, h⟩
    · rw [if_neg hn] at h
      rcases List.mem_append.mp h with h' | h'
      · exact ih (n / 10) c h'
      · simp only [List.mem_singleton] at h'
        exact ⟨n % 10, Nat.mod_lt _ (by omega), h'⟩

theorem natStr_no_lt (n : Nat) : '<' ∉ natStr n := by
  intro h
  obtain ⟨m, hm, hc⟩ := natDigitsGo_digits (n + 1) n '<' h
  interval_cases m <;> simp_all

theorem fillStage_spec {l y1 after : List Char} (h : fillStage l = some (y1, after)) :
    ∃ v, l = y1 ++ fillLit ++ v ++ '"' :: after ∧ noGt y1 = true ∧
      v.all (fun c => c ≠ '"') = true := by
  unfold fillStage at h
  obtain ⟨pr, hmem, hf⟩ := firstSome_some h
  have hdec := splitsOn_mem (List.mem_reverse.mp hmem)
  by_cases hg : noGt pr.1 = true
  · rw [if_pos hg] at hf
    by_cases hc : (pr.2.takeWhile (fun c => c ≠ '"')).length < pr.2.length
    · rw [if_pos hc] at hf
      simp only [Option.some.injEq, Prod.mk.injEq] at hf
      obtain ⟨rfl, rfl⟩ := hf
      obtain ⟨c, hcq, hw⟩ := takeWhile_lt_decomp hc
      have hcq' : c = '"' := by simpa using hcq
      subst hcq'
      refine ⟨pr.2.takeWhile (fun c => c ≠ '"'), ?_, hg, ?_⟩
      · conv_lhs => rw [hdec]
        conv_lhs => rw [hw]
        simp [List.append_assoc]
      · rw [List.all_eq_true]
        intro x hx
        exact List.mem_takeWhile_imp (p := fun c => decide (c ≠ '"')) hx
    · rw [if_neg hc] at hf
      exact Option.noConfusion hf
  · rw [if_neg hg] at hf
    exact Option.noConfusion hf

theorem tryMatchIdFill_spec {eid l g r : List Char}
    (h : tryMatchIdFill eid l = some (g, r)) :
    ∃ x y1 v, g = x ++ idLit eid ++ y1 ∧
      l = '<' :: (x ++ idLit eid ++ (y1 ++ fillLit ++ v ++ '"' :: r)) ∧
      noGt x = true ∧ noGt y1 = true ∧ v.all (fun c => c ≠ '"') = true := by
  unfold tryMatchIdFill at h
  split at h
  case h_2 => exact Option.noConfusion h
  case h_1 rest =>
    obtain ⟨pr, hmem, hf⟩ := firstSome_some h
    have hdec := splitsOn_mem (List.mem_reverse.mp hmem)
    by_cases hg : noGt pr.1 = true
    · rw [if_pos hg] at hf
      revert hf
      cases hfs : fillStage pr.2 with
      | none => intro hf; exact Option.noConfusion hf
      | some pr2 =>
        intro hf
        obtain ⟨y1, after⟩ := pr2
        have hf' : (pr.1 ++ idLit eid ++ y1, after) = (g, r) := Option.some.inj hf
        simp only [Prod.mk.injEq] at hf'
        obtain ⟨rfl, rfl⟩ := hf'
        obtain ⟨v, hfill, hy1, hv⟩ := fillStage_spec hfs
        refine ⟨pr.1, y1, v, rfl, ?_, hg, hy1, hv⟩
        rw [hdec, hfill]
    · rw [if_neg hg] at hf
      exact Option.noConfusion hf

theorem classInner_spec {cls l inner after : List Char}
    (h : classInner cls l = some (inner, after)) :
    ∃ v, l = inner ++ fillLit ++ v ++ '"' :: after := by
  unfold classInner at h
  obtain ⟨pr, hmem, hf⟩ := firstSome_some h
  have hdec := splitsOn_mem (List.mem_reverse.mp hmem)
  by_cases hg : pr.1.all (fun c => c ≠ '"') = true
  · rw [if_pos hg] at hf
    by_cases hc : (pr.2.takeWhile (fun c => c ≠ '"')).length < pr.2.length
    · rw [if_pos hc] at hf
      revert hf
      cases hfs : fillStage (pr.2.drop ((pr.2.takeWhile (fun c => c ≠ '"')).length + 1)) with
      | none => intro hf; exact Option.noConfusion hf
      | some pr2 =>
        intro hf
        obtain ⟨y1, after'⟩ := pr2
        have hf' : (pr.1 ++ cls ++ pr.2.takeWhile (fun c => c ≠ '"') ++ '"' :: y1, after') =
            (inner, after) := Option.some.inj hf
        simp only [Prod.mk.injEq] at hf'
        obtain ⟨rfl, rfl⟩ := hf'
        obtain ⟨c, hcq, hw⟩ := takeWhile_lt_decomp hc
        have hcq' : c = '"' := by simpa using hcq
        subst hcq'
        obtain ⟨v, hfill, _, _⟩ := fillStage_spec hfs
        refine ⟨v, ?_⟩
        conv_lhs => rw [hdec]
        conv_lhs => rw [hw]
        rw [hfill]
        simp [List.append_assoc]
    · rw [if_neg hc] at hf
      exact Option.noConfusion hf
  · rw [if_neg hg] at hf
    exact Option.noConfusion hf

theorem tryMatchClassFill_spec {cls l g r : List Char}
    (h : tryMatchClassFill cls l = some (g, r)) :
    ∃ v, l = '<' :: (g ++ fillLit ++ v ++ '"' :: r) := by
  unfold tryMatchClassFill at h
  split at h
  case h_2 => exact Option.noConfusion h
  case h_1 rest =>
    obtain ⟨pr, hmem, hf⟩ := firstSome_some h
    have hdec := splitsOn_mem (List.mem_reverse.mp hmem)
    by_cases hg : noGt pr.1 = true
    · rw [if_pos hg] at hf
      revert hf
      cases hfs : classInner cls pr.2 with
      | none => intro hf; exact Option.noConfusion hf
      | some pr2 =>
        intro hf
        obtain ⟨inner, after⟩ := pr2
        have hf' : (pr.1 ++ classLit ++ inner, after) = (g, r) := Option.some.inj hf
        simp only [Prod.mk.injEq] at hf'
        obtain ⟨rfl, rfl⟩ := hf'
        obtain ⟨v, hfill⟩ := classInner_spec hfs
        refine ⟨v, ?_⟩
        rw [hdec, hfill]
        simp [List.append_assoc]
    · rw [if_neg hg] at hf
      exact Option.noConfusion hf

theorem tryMatchTagFill_spec {tag l g r : List Char}
    (h : tryMatchTagFill tag l = some (g, r)) :
    ∃ v, l = '<' :: (g ++ fillLit ++ v ++ '"' :: r) := by
  unfold tryMatchTagFill at h
  split at h
  case h_2 => exact Option.noConfusion h
  case h_1 rest =>
    by_cases hp : tag.isPrefixOf rest = true
    · rw [if_pos hp] at h
      revert h
      cases hfs : fillStage (rest.drop tag.length) with
      | none => intro h; exact Option.noConfusion h
      | some pr2 =>
        intro h
        obtain ⟨y1, after⟩ := pr2
        have hf' : (tag ++ y1, after) = (g, r) := Option.some.inj h
        simp only [Prod.mk.injEq] at hf'
        obtain ⟨rfl, rfl⟩ := hf'
        obtain ⟨v, hfill, _, _⟩ := fillStage_spec hfs
        obtain ⟨t, ht⟩ := List.isPrefixOf_iff_prefix.mp hp
        have hrest : rest = tag ++ rest.drop tag.length := by
          conv_lhs => rw [← ht]
          rw [← ht, List.drop_left]
        refine ⟨v, ?_⟩
        rw [hrest, hfill]
        simp [List.append_assoc]
    · rw [if_neg hp] at h
      exact Option.noConfusion h

/-- Weak shape of every successful fill-pattern match: the matched text is
    `<` + group + `fill="` + value + `"`. -/
theorem tryMatchIdFill_shape {eid l g r : List Char}
    (h : tryMatchIdFill eid l = some (g, r)) :
    ∃ v, l = '<' :: (g ++ fillLit ++ v ++ '"' :: r) := by
  obtain ⟨x, y1, v, rfl, hl, _, _, _⟩ := tryMatchIdFill_spec h
  exact ⟨v, by rw [hl]; simp [List.append_assoc]⟩

theorem fillRepl_head : ∀ gid, (fillRepl gid).take 5 = str "fill=" := fun _ => rfl

theorem fillRepl_long (gid : List Char) : 13 ≤ (fillRepl gid).length := by
  have h1 : (str "fill=\"url(#").length = 11 := rfl
  have h2 : (str ")\"").length = 2 := rfl
  simp only [fillRepl, List.length_append, h1, h2]
  omega

theorem no_lt_fillRepl (n : Nat) : '<' ∉ fillRepl (str "grad" ++ natStr n) := by
  intro h
  simp only [fillRepl, List.mem_append] at h
  rcases h with (h | h | h) | h
  · exact absurd h (by decide)
  · exact absurd h (by decide)
  · exact natStr_no_lt n h
  · exact absurd h (by decide)

theorem span_defsOpen (p1 p2 : List Char) (h : defsOpen = p1 ++ p2)
    (h1 : p1 ≠ []) (h2 : p2 ≠ []) : ¬ p2 <+: str "fill=" := by
  have hp2 : p2 = defsOpen.drop p1.length := by rw [h, List.drop_left]
  have hlen : p1.length + p2.length = 6 := by
    have := congrArg List.length h
    simp only [List.length_append] at this
    exact this.symm
  have hk1 : 1 ≤ p1.length := List.length_pos.mpr h1
  have hk2 : p1.length ≤ 5 := by
    have := List.length_pos.mpr h2
    omega
  have hk : p1.length = 1 ∨ p1.length = 2 ∨ p1.length = 3 ∨ p1.length = 4 ∨ p1.length = 5 := by
    omega
  rcases hk with h' | h' | h' | h' | h' <;> rw [h'] at hp2 <;> rw [hp2] <;> decide

theorem span_svg (p1 p2 : List Char) (h : str "<svg" = p1 ++ p2)
    (h1 : p1 ≠ []) (h2 : p2 ≠ []) : ¬ p2 <+: str "fill=" := by
  have hp2 : p2 = (str "<svg").drop p1.length := by rw [h, List.drop_left]
  have hlen : p1.length + p2.length = 4 := by
    have := congrArg List.length h
    simp only [List.length_append] at this
    exact this.symm
  have hk1 : 1 ≤ p1.length := List.length_pos.mpr h1
  have hk2 : p1.length ≤ 3 := by
    have := List.length_pos.mpr h2
    omega
  have hk : p1.length = 1 ∨ p1.length = 2 ∨ p1.length = 3 := by omega
  rcases hk with h' | h' | h' <;> rw [h'] at hp2 <;> rw [hp2] <;> decide

theorem subFillGo_preserves
    {tryM : List Char → Option (List Char × List Char)}
    (hspec : ∀ {l g r : List Char}, tryM l = some (g, r) →
      ∃ v, l = '<' :: (g ++ fillLit ++ v ++ '"' :: r))
    {gid pat : List Char}
    (hhead : pat.head? = some '<')
    (hnlt : '<' ∉ fillRepl gid)
    (hlen : pat.length ≤ 6)
    (hspan : ∀ p1 p2, pat = p1 ++ p2 → p1 ≠ [] → p2 ≠ [] → ¬ p2 <+: str "fill=") :
    ∀ (fuel : Nat) (l : List Char), containsSub l pat = false →
      containsSub (subFillGo tryM (fillRepl gid) fuel l) pat = false := by
  have hltpat : '<' ∈ pat := by
    cases pat with
    | nil => simp at hhead
    | cons c cs =>
      simp only [List.head?_cons, Option.some.injEq] at hhead
      rw [hhead]
      simp
  intro fuel
  induction fuel with
  | zero => intro l hl; exact hl
  | succ fuel ih =>
    intro l hl
    simp only [subFillGo]
    cases hm : findMatch tryM l with
    | none => exact hl
    | some t =>
      obtain ⟨pre, grp, rest⟩ := t
      show containsSub
        (pre ++ '<' :: (grp ++ fillRepl gid) ++ subFillGo tryM (fillRepl gid) fuel rest) pat = false
      obtain ⟨suf, hlsplit, htry⟩ := findMatch_decomp hm
      obtain ⟨v, hsuf⟩ := hspec htry
      have hl' : l = (pre ++ '<' :: grp) ++ (fillLit ++ v ++ '"' :: rest) := by
        rw [hlsplit, hsuf]
        simp [List.append_assoc]
      have hlfalse : ¬ pat <:+: l := fun hx => by
        rw [containsSub_spec.mpr hx] at hl
        exact Bool.noConfusion hl
      have hrest : containsSub rest pat = false := by
        cases hr : containsSub rest pat with
        | false => rfl
        | true =>
          exfalso
          have hinfr : pat <:+: rest := containsSub_spec.mp hr
          have hsufx : rest <:+ l := by
            refine ⟨(pre ++ '<' :: grp) ++ (fillLit ++ v ++ ['"']), ?_⟩
            rw [hl']
            simp [List.append_assoc]
          exact hlfalse (hinfr.trans hsufx.isInfix)
      have hrec := ih rest hrest
      have hrecfalse : ¬ pat <:+: subFillGo tryM (fillRepl gid) fuel rest := fun hx => by
        rw [containsSub_spec.mpr hx] at hrec
        exact Bool.noConfusion hrec
      have houtput : pre ++ '<' :: (grp ++ fillRepl gid) ++
            subFillGo tryM (fillRepl gid) fuel rest =
          (pre ++ '<' :: grp) ++
            (fillRepl gid ++ subFillGo tryM (fillRepl gid) fuel rest) := by
        simp [List.append_assoc]
      rw [houtput]
      apply Bool.eq_false_iff.mpr
      intro hco
      have hApre : (pre ++ '<' :: grp) <+: l := ⟨fillLit ++ v ++ '"' :: rest, hl'.symm⟩
      have hinf := containsSub_spec.mp hco
      rcases infix_append_decomp hinf with hca | hcb | hcc
      · exact hlfalse (hca.trans hApre.isInfix)
      · rcases infix_append_decomp hcb with hd | he | hf
        · exact hnlt (hd.subset hltpat)
        · exact hrecfalse he
        · obtain ⟨p1, p2, hps, hp1ne, hp2ne, hp1suf, _⟩ := hf
          have hltp1 : '<' ∈ p1 := by
            cases p1 with
            | nil => exact absurd rfl hp1ne
            | cons a as =>
              have : pat.head? = some a := by rw [hps]; rfl
              rw [hhead] at this
              have ha : a = '<' := (Option.some.inj this).symm
              rw [ha]
              simp
          exact hnlt (hp1suf.subset hltp1)
      · obtain ⟨p1, p2, hps, hp1ne, hp2ne, hp1suf, hp2pre⟩ := hcc
        have hp2len : p2.length ≤ 5 := by
          have hl6 := congrArg List.length hps
          simp only [List.length_append] at hl6
          have := List.length_pos.mpr hp1ne
          omega
        obtain ⟨t2, ht2⟩ := hp2pre
        have hp2take : p2 = (fillRepl gid ++
            subFillGo tryM (fillRepl gid) fuel rest).take p2.length := by
          rw [← ht2, List.take_left]
        have hp2take' : p2 = (fillRepl gid).take p2.length := by
          conv_lhs => rw [hp2take]
          rw [List.take_append_of_le_length (by have := fillRepl_long gid; omega)]
        have hp2fill : p2 = (str "fill=").take p2.length := by
          conv_lhs => rw [hp2take']
          rw [← fillRepl_head gid, List.take_take]
          congr 1
          omega
        have : p2 <+: str "fill=" := by
          rw [hp2fill]
          exact List.take_prefix _ _
        exact hspan p1 p2 hps hp1ne hp2ne this

/-- A pattern whose occurrences cannot be created by the fill rewriting:
    it starts with `<`, is short, and no nonempty split of it has its right
    part as a prefix of `fill="`. -/
def FillSafe (pat : List Char) : Prop :=
  pat.head? = some '<' ∧ pat.length ≤ 6 ∧
    ∀ p1 p2, pat = p1 ++ p2 → p1 ≠ [] → p2 ≠ [] → ¬ p2 <+: str "fill="

theorem fillSafe_defsOpen : FillSafe defsOpen :=
  ⟨rfl, by decide, span_defsOpen⟩

theorem fillSafe_svg : FillSafe (str "<svg") :=
  ⟨rfl, by decide, span_svg⟩

theorem applyTarget_preserves {pat : List Char} (hsafe : FillSafe pat) (n : Nat)
    (sel svg : List Char) (hl : containsSub svg pat = false) :
    containsSub (applyTarget (str "grad" ++ natStr n) svg sel) pat = false := by
  obtain ⟨hhead, hlen, hspan⟩ := hsafe
  have hnlt := no_lt_fillRepl n
  unfold applyTarget
  split
  · exact subFillGo_preserves (fun h => tryMatchIdFill_shape h) hhead hnlt hlen hspan _ svg hl
  · exact subFillGo_preserves (fun h => tryMatchClassFill_spec h) hhead hnlt hlen hspan _ svg hl
  · exact subFillGo_preserves (fun h => tryMatchTagFill_spec h) hhead hnlt hlen hspan _ svg hl

theorem foldTargets_preserves {pat : List Char} (hsafe : FillSafe pat) (n : Nat) :
    ∀ (ts : List Target) (svg : List Char), containsSub svg pat = false →
      containsSub (ts.foldl (fun s t => applyTarget (str "grad" ++ natStr n) s t.selector) svg)
        pat = false := by
  intro ts
  induction ts with
  | nil => intro svg hl; exact hl
  | cons t ts ih =>
    intro svg hl
    simp only [List.foldl_cons]
    exact ih _ (applyTarget_preserves hsafe n t.selector svg hl)

theorem applyStepsGo_preserves {pat : List Char} (hsafe : FillSafe pat) :
    ∀ (steps : List GradientStep) (n : Nat) (acc : List (List Char)) (svg : List Char),
      containsSub svg pat = false →
      containsSub (applyStepsGo (acc, svg) n steps).2 pat = false := by
  intro steps
  induction steps with
  | nil => intro n acc svg hl; exact hl
  | cons s rest ih =>
    intro n acc svg hl
    simp only [applyStepsGo, applyStep]
    exact ih (n + 1) _ _ (foldTargets_preserves hsafe n s.targets svg hl)

theorem splitFirst_none_of_not_contains {pat : List Char} :
    ∀ {l : List Char}, containsSub l pat = false → splitFirst pat l = none := by
  intro l
  induction l with
  | nil =>
    intro h
    simp only [containsSub] at h
    simp [splitFirst, h]
  | cons c cs ih =>
    intro h
    simp only [containsSub, Bool.or_eq_false_iff] at h
    obtain ⟨h1, h2⟩ := h
    simp only [splitFirst, h1, Bool.false_eq_true, if_false, ih h2, Option.map_none']

/-- Claim C10.  On a document containing neither the `<defs>` marker nor the
    substring `<svg`, `apply_gradients` returns the fill-patched text
    unchanged by the placement stage: the synthesized definitions block is
    silently discarded. -/
theorem claim_C10 (doc : List Char) (spec : Specification)
    (h1 : containsSub doc defsOpen = false)
    (h2 : containsSub doc (str "<svg") = false) :
    applyGradients doc spec = (patchedOf doc spec).2 := by
  have hp1 : containsSub (patchedOf doc spec).2 defsOpen = false :=
    applyStepsGo_preserves fillSafe_defsOpen spec.steps 1 [] doc h1
  have hp2 : containsSub (patchedOf doc spec).2 (str "<svg") = false :=
    applyStepsGo_preserves fillSafe_svg spec.steps 1 [] doc h2
  show placeDefs (blockOf doc spec) ((patchedOf doc spec).2) = _
  unfold placeDefs
  rw [if_neg (by rw [hp1]; exact Bool.false_ne_true)]
  unfold insertAfterSvgTag
  rw [splitFirst_none_of_not_contains hp2]

theorem claim_C10_witness :
    containsSub (str "no root <rect fill=\"z\"/>") defsOpen = false ∧
    containsSub (str "no root <rect fill=\"z\"/>") (str "<svg") = false ∧
    applyGradients (str "no root <rect fill=\"z\"/>")
        ⟨[⟨[⟨str "rect", str "d"⟩],
           ⟨str "linear", str "horizontal",
            [⟨0, str "#ff0000"⟩, ⟨100, str "#0000ff"⟩]⟩⟩]⟩ =
      (patchedOf (str "no root <rect fill=\"z\"/>")
        ⟨[⟨[⟨str "rect", str "d"⟩],
           ⟨str "linear", str "horizontal",
            [⟨0, str "#ff0000"⟩, ⟨100, str "#0000ff"⟩]⟩⟩]⟩).2 :=
  ⟨by decide, by decide,
    claim_C10 (str "no root <rect fill=\"z\"/>")
      ⟨[⟨[⟨str "rect", str "d"⟩],
         ⟨str "linear", str "horizontal",
          [⟨0, str "#ff0000"⟩, ⟨100, str "#0000ff"⟩]⟩⟩]⟩
      (by decide) (by decide)⟩

theorem quote_split_unique :
    ∀ {v v' Q rest : List Char}, v.all (fun c => c ≠ '"') = true →
      v'.all (fun c => c ≠ '"') = true →
      v ++ '"' :: Q = v' ++ '"' :: rest → v = v' ∧ Q = rest := by
  intro v
  induction v with
  | nil =>
    intro v' Q rest _ hv' heq
    cases v' with
    | nil => simpa using heq
    | cons c vs' =>
      exfalso
      simp only [List.nil_append, List.cons_append, List.cons.injEq] at heq
      have : c = '"' := heq.1.symm
      rw [List.all_cons, this] at hv'
      simp at hv'
  | cons c vs ih =>
    intro v' Q rest hv hv' heq
    cases v' with
    | nil =>
      exfalso
      simp only [List.cons_append, List.nil_append, List.cons.injEq] at heq
      rw [List.all_cons, heq.1] at hv
      simp at hv
    | cons c' vs' =>
      simp only [List.cons_append, List.cons.injEq] at heq
      rw [List.all_cons] at hv hv'
      obtain ⟨h1, h2⟩ := heq
      obtain ⟨hvs, hQ⟩ := ih (Bool.and_elim_right hv) (Bool.and_elim_right hv') h2
      exact ⟨by rw [h1, hvs], hQ⟩

theorem idLit_len (eid : List Char) : (idLit eid).length = eid.length + 5 := by
  have h4 : (str "id=\"").length = 4 := rfl
  have h1 : (str "\"").length = 1 := rfl
  simp only [idLit, List.length_append, h4, h1]
  omega

theorem tryMatchIdFill_contains {eid l g r : List Char}
    (h : tryMatchIdFill eid l = some (g, r)) : containsSub l (idLit eid) = true := by
  obtain ⟨x, y1, v, _, hl, _, _, _⟩ := tryMatchIdFill_spec h
  rw [hl]
  have := containsSub_middle ('<' :: x) (idLit eid) (y1 ++ fillLit ++ v ++ '"' :: r)
  simpa [List.append_assoc] using this

theorem findMatch_idFill_none {eid : List Char} :
    ∀ {l : List Char}, containsSub l (idLit eid) = false →
      findMatch (tryMatchIdFill eid) l = none := by
  intro l
  induction l with
  | nil => intro _; rfl
  | cons c cs ih =>
    intro h
    simp only [containsSub, Bool.or_eq_false_iff] at h
    obtain ⟨h1, h2⟩ := h
    have htry : tryMatchIdFill eid (c :: cs) = none := by
      cases ht : tryMatchIdFill eid (c :: cs) with
      | none => rfl
      | some pr =>
        exfalso
        obtain ⟨g, r⟩ := pr
        have := tryMatchIdFill_contains ht
        rw [show containsSub (c :: cs) (idLit eid) =
          ((idLit eid).isPrefixOf (c :: cs) || containsSub cs (idLit eid)) from rfl,
          h1, h2] at this
        exact Bool.noConfusion this
    simp only [findMatch, htry, ih h2, Option.map_none']

theorem subFillGo_id {tryM : List Char → Option (List Char × List Char)}
    {repl l : List Char} (h : findMatch tryM l = none) :
    ∀ fuel, subFillGo tryM repl fuel l = l := by
  intro fuel
  cases fuel with
  | zero => rfl
  | succ fuel => simp only [subFillGo, h]

theorem subIdFill_unique (gid : List Char) {eid P a b v Q doc : List Char}
    (hdoc : doc = (P ++ '<' :: a) ++ idLit eid ++ (b ++ fillLit ++ (v ++ '"' :: Q)))
    (hid : splitsOn (idLit eid) doc = [(P ++ '<' :: a, b ++ fillLit ++ (v ++ '"' :: Q))])
    (ha : noGt a = true) (hb : noGt b = true)
    (hv : v.all (fun c => c ≠ '"') = true)
    (hfill : (splitsOn fillLit (b ++ fillLit ++ (v ++ '"' :: Q))).filter
        (fun pr => noGt pr.1) = [(b, v ++ '"' :: Q)]) :
    subFillAll (tryMatchIdFill eid) (fillRepl gid) doc =
      (P ++ '<' :: a) ++ idLit eid ++ (b ++ fillRepl gid ++ Q) := by
  have hQid : containsSub Q (idLit eid) = false := by
    cases hc : containsSub Q (idLit eid) with
    | false => rfl
    | true =>
      exfalso
      obtain ⟨u, w, hQeq⟩ := containsSub_spec.mp hc
      have hdoc2 : doc =
          ((P ++ '<' :: a) ++ idLit eid ++ (b ++ fillLit ++ (v ++ '"' :: u))) ++
            idLit eid ++ w := by
        rw [hdoc, ← hQeq]
        simp [List.append_assoc]
      have hmem : ((P ++ '<' :: a) ++ idLit eid ++ (b ++ fillLit ++ (v ++ '"' :: u)), w)
          ∈ splitsOn (idLit eid) doc := by
        rw [hdoc2]; exact splitsOn_complete
      rw [hid] at hmem
      simp only [List.mem_singleton, Prod.mk.injEq] at hmem
      have hlen := congrArg List.length hmem.1
      simp only [List.length_append, List.length_cons, idLit_len] at hlen
      omega
  have htk : ((v ++ '"' :: Q).takeWhile (fun c => c ≠ '"')).length < (v ++ '"' :: Q).length := by
    have h1 : (v ++ '"' :: Q).takeWhile (fun c => c ≠ '"') = v := by
      rw [List.takeWhile_append_of_pos (by
        intro x hx
        have := List.all_eq_true.mp hv x hx
        simpa using this)]
      rw [List.takeWhile_cons_of_neg (by simp)]
      simp
    rw [h1]
    simp only [List.length_append, List.length_cons]
    omega
  have hfse : ∃ res, fillStage (b ++ fillLit ++ (v ++ '"' :: Q)) = some res := by
    have hmem : ((b : List Char), v ++ '"' :: Q) ∈
        (splitsOn fillLit (b ++ fillLit ++ (v ++ '"' :: Q))).reverse :=
      List.mem_reverse.mpr splitsOn_complete
    unfold fillStage
    exact firstSome_of_mem hmem (by
      show (if noGt b = true then
          if ((v ++ '"' :: Q).takeWhile (fun c => c ≠ '"')).length < (v ++ '"' :: Q).length then
            some (b, (v ++ '"' :: Q).drop
              (((v ++ '"' :: Q).takeWhile (fun c => c ≠ '"')).length + 1))
          else none
        else none) = some (b, (v ++ '"' :: Q).drop
          (((v ++ '"' :: Q).takeWhile (fun c => c ≠ '"')).length + 1))
      rw [if_pos hb, if_pos htk])
  have htm : ∃ z, tryMatchIdFill eid
      ('<' :: (a ++ idLit eid ++ (b ++ fillLit ++ (v ++ '"' :: Q)))) = some z := by
    obtain ⟨res, hres⟩ := hfse
    obtain ⟨y1r, afterr⟩ := res
    have hmem : ((a : List Char), b ++ fillLit ++ (v ++ '"' :: Q)) ∈
        (splitsOn (idLit eid) (a ++ idLit eid ++ (b ++ fillLit ++ (v ++ '"' :: Q)))).reverse :=
      List.mem_reverse.mpr splitsOn_complete
    show ∃ z, firstSome (fun pr =>
        if noGt pr.1 = true then
          match fillStage pr.2 with
          | some (y1, after) => some (pr.1 ++ idLit eid ++ y1, after)
          | none => none
        else none)
      (splitsOn (idLit eid) (a ++ idLit eid ++ (b ++ fillLit ++ (v ++ '"' :: Q)))).reverse =
        some z
    exact firstSome_of_mem hmem (by
      show (if noGt a = true then
          match fillStage (b ++ fillLit ++ (v ++ '"' :: Q)) with
          | some (y1, after) => some (a ++ idLit eid ++ y1, after)
          | none => none
        else none) = some (a ++ idLit eid ++ y1r, afterr)
      rw [if_pos ha, hres])
  cases hm : findMatch (tryMatchIdFill eid) doc with
  | none =>
    exfalso
    obtain ⟨z, hz⟩ := htm
    have hdsplit : doc = P ++ ('<' :: (a ++ idLit eid ++ (b ++ fillLit ++ (v ++ '"' :: Q)))) := by
      rw [hdoc]
      simp [List.append_assoc]
    have := findMatch_none rfl hm P
      ('<' :: (a ++ idLit eid ++ (b ++ fillLit ++ (v ++ '"' :: Q)))) hdsplit
    rw [this] at hz
    exact Option.noConfusion hz
  | some t =>
    obtain ⟨pre, grp, rest⟩ := t
    obtain ⟨suf, hsplit, htry⟩ := findMatch_decomp hm
    obtain ⟨x, y1, v', hgrp, hsuf, hx, hy1, hv'⟩ := tryMatchIdFill_spec htry
    have hdoc3 : doc =
        (pre ++ '<' :: x) ++ idLit eid ++ (y1 ++ fillLit ++ (v' ++ '"' :: rest)) := by
      rw [hsplit, hsuf]
      simp [List.append_assoc]
    have hmem3 : (pre ++ '<' :: x, y1 ++ fillLit ++ (v' ++ '"' :: rest))
        ∈ splitsOn (idLit eid) doc := by
      rw [hdoc3]; exact splitsOn_complete
    rw [hid] at hmem3
    simp only [List.mem_singleton, Prod.mk.injEq] at hmem3
    obtain ⟨hX, hW⟩ := hmem3
    have hmem4 : (y1, v' ++ '"' :: rest) ∈
        (splitsOn fillLit (b ++ fillLit ++ (v ++ '"' :: Q))).filter (fun pr => noGt pr.1) := by
      rw [List.mem_filter]
      exact ⟨by rw [← hW]; exact splitsOn_complete, hy1⟩
    rw [hfill] at hmem4
    simp only [List.mem_singleton, Prod.mk.injEq] at hmem4
    obtain ⟨hy1b, hvrest⟩ := hmem4
    obtain ⟨hvv, hrQ⟩ := quote_split_unique hv' hv hvrest
    subst hy1b
    subst hrQ
    unfold subFillAll
    obtain ⟨m, hmsucc⟩ : ∃ m, doc.length = m + 1 := by
      refine ⟨doc.length - 1, ?_⟩
      have hpos : 0 < doc.length := by
        rw [hdoc]
        simp [List.length_append, List.length_cons]
      omega
    rw [hmsucc]
    simp only [subFillGo, hm]
    rw [subFillGo_id (findMatch_idFill_none hQid)]
    rw [hgrp, ← hX]
    simp [List.append_assoc]

/-- Claim C2 (counterexample).  The id pattern
    `<([^>]*id="hero"[^>]*)fill="[^"]*"` requires the `fill` attribute to
    appear after the `id` attribute inside the tag: when `fill` comes first,
    the element is left unchanged, contradicting the claim. -/
theorem claim_C2_cex :
    applyGradients (str "<svg><rect fill=\"red\" id=\"hero\"/></svg>")
        ⟨[⟨[⟨str "#hero", str "d"⟩],
           ⟨str "linear", str "horizontal",
            [⟨0, str "#ff0000"⟩, ⟨100, str "#0000ff"⟩]⟩⟩]⟩ =
      str "<svg><defs><linearGradient id=\"grad1\" x1=\"0%\" y1=\"0%\" x2=\"100%\" y2=\"0%\"><stop offset=\"0%\" style=\"stop-color:#ff0000;stop-opacity:1\" /><stop offset=\"100%\" style=\"stop-color:#0000ff;stop-opacity:1\" /></linearGradient></defs><rect fill=\"red\" id=\"hero\"/></svg>" ∧
    containsSub (applyGradients (str "<svg><rect fill=\"red\" id=\"hero\"/></svg>")
        ⟨[⟨[⟨str "#hero", str "d"⟩],
           ⟨str "linear", str "horizontal",
            [⟨0, str "#ff0000"⟩, ⟨100, str "#0000ff"⟩]⟩⟩]⟩)
      (str "fill=\"url(#grad1)\"") = false := by
  refine ⟨by decide, by decide⟩

/-- Claim C2 (amended).  For a document whose unique `id="hero"` occurrence
    sits in a start-tag where a `fill="..."` attribute follows the id
    attribute (`>`-free gaps, quote-free value, and the only `fill="` with a
    `>`-free gap after the id), applying a one-step Specification targeting
    `#hero` rewrites exactly that fill value to `url(#grad1)`, leaving all
    other text unchanged up to the definitions-block placement stage. -/
theorem claim_C2 (desc : List Char) (g : Gradient) (P a b v Q doc : List Char)
    (hdoc : doc = (P ++ '<' :: a) ++ idLit (str "hero") ++ (b ++ fillLit ++ (v ++ '"' :: Q)))
    (hid : splitsOn (idLit (str "hero")) doc =
      [(P ++ '<' :: a, b ++ fillLit ++ (v ++ '"' :: Q))])
    (ha : noGt a = true) (hb : noGt b = true)
    (hv : v.all (fun c => c ≠ '"') = true)
    (hfill : (splitsOn fillLit (b ++ fillLit ++ (v ++ '"' :: Q))).filter
        (fun pr => noGt pr.1) = [(b, v ++ '"' :: Q)]) :
    (patchedOf doc ⟨[⟨[⟨str "#hero", desc⟩], g⟩]⟩).2 =
      (P ++ '<' :: a) ++ idLit (str "hero") ++ (b ++ fillRepl (str "grad1") ++ Q) ∧
    applyGradients doc ⟨[⟨[⟨str "#hero", desc⟩], g⟩]⟩ =
      placeDefs (blockOf doc ⟨[⟨[⟨str "#hero", desc⟩], g⟩]⟩)
        ((P ++ '<' :: a) ++ idLit (str "hero") ++ (b ++ fillRepl (str "grad1") ++ Q)) := by
  have hpatch : (patchedOf doc ⟨[⟨[⟨str "#hero", desc⟩], g⟩]⟩).2 =
      subFillAll (tryMatchIdFill (str "hero")) (fillRepl (str "grad1")) doc := rfl
  have h1 := subIdFill_unique (str "grad1") hdoc hid ha hb hv hfill
  have h2 := hpatch.trans h1
  refine ⟨h2, ?_⟩
  show placeDefs (blockOf doc ⟨[⟨[⟨str "#hero", desc⟩], g⟩]⟩)
      ((patchedOf doc ⟨[⟨[⟨str "#hero", desc⟩], g⟩]⟩).2) = _
  rw [h2]

theorem claim_C2_witness :
    (patchedOf (str "<svg><rect id=\"hero\" fill=\"red\"/><circle fill=\"green\"/></svg>")
        ⟨[⟨[⟨str "#hero", str "d"⟩],
           ⟨str "linear", str "horizontal",
            [⟨0, str "#ff0000"⟩, ⟨100, str "#0000ff"⟩]⟩⟩]⟩).2 =
      (str "<svg>" ++ '<' :: str "rect ") ++ idLit (str "hero") ++
        (str " " ++ fillRepl (str "grad1") ++ str "/><circle fill=\"green\"/></svg>") := by
  have h := claim_C2 (str "d")
    ⟨str "linear", str "horizontal", [⟨0, str "#ff0000"⟩, ⟨100, str "#0000ff"⟩]⟩
    (str "<svg>") (str "rect ") (str " ") (str "red")
    (str "/><circle fill=\"green\"/></svg>")
    (str "<svg><rect id=\"hero\" fill=\"red\"/><circle fill=\"green\"/></svg>")
    (by decide) (by decide) (by decide) (by decide) (by decide) (by decide)
  exact h.1
